import Mathlib

/-!
Verification of the InvestigationWorkbench ingestion front-end: a shallow
embedding of the field-mapping suggestion library
(web/src/lib/fieldSuggestions.ts), the batch-ingest wizard store
(useIngestStore), the events/entities relational schema (cli/schema.sql),
the pivot URL serialization (usePivotStore) and the case session store
(useCaseStore), together with theorems about them.

Strings handled by the field mapper and the stores are modelled as
`List Char` (JS strings, one entry per UTF-16 unit; all constants involved
are ASCII).  Pivot-serialization strings are modelled as `List Nat` of
Unicode code points, since percent-encoding works at the code-point/byte
level.  SQL text columns are modelled as Lean `String`.
-/

set_option maxRecDepth 8000

/-- Shorthand: the character list of a string literal. -/
def cs (s : String) : List Char := s.data

/-! ## Field mapper (web/src/lib/fieldSuggestions.ts) -/

namespace FieldSuggestions

/-- ASCII lower-casing, the effect of JS `toLowerCase` on the ASCII range
(the characters surviving `normalize` are all ASCII). -/
def lowerAscii (c : Char) : Char :=
  if 65 ≤ c.toNat && c.toNat ≤ 90 then Char.ofNat (c.toNat + 32) else c

/-- The characters of the JS regexp class `\s` in the ASCII range. -/
def isJsSpace (c : Char) : Bool :=
  c == ' ' || c == '\t' || c == '\n' || c == '\r' || c.toNat == 11 || c.toNat == 12

/-- One character of the `replace(/[-\s]/g, "_")` step. -/
def collapseSep (c : Char) : Char :=
  if c == '-' || isJsSpace c then '_' else c

/-- Characters kept by the `replace(/[^a-z0-9_]/g, "")` step. -/
def isKept (c : Char) : Bool :=
  (97 ≤ c.toNat && c.toNat ≤ 122) || (48 ≤ c.toNat && c.toNat ≤ 57) || c == '_'

/-- The normalization pipeline of `suggestMapping`: lower-case, collapse
separators to underscores, strip the remaining non-alphanumerics. -/
def normalize (s : List Char) : List Char :=
  ((s.map lowerAscii).map collapseSep).filter isKept

/-- JS `hay.includes(needle)`: `needle` occurs contiguously in `hay`. -/
def strIncludes (hay needle : List Char) : Bool :=
  match hay with
  | [] => needle.isEmpty
  | c :: t => needle.isPrefixOf (c :: t) || strIncludes t needle

/-- The static alias table `FIELD_PATTERNS`, in its JS key-insertion order. -/
def FIELD_PATTERNS : List (List Char × List (List Char)) := [
  (cs "event_ts", [cs "timestamp", cs "time", cs "datetime", cs "_time",
    cs "eventtime", cs "created_at", cs "date", cs "ts", cs "when",
    cs "occurred", cs "event_time", cs "log_time", cs "recorded_at"]),
  (cs "event_type", [cs "type", cs "action", cs "category", cs "eventname",
    cs "activity", cs "event_name", cs "operation", cs "name", cs "event_id",
    cs "event_category"]),
  (cs "host", [cs "hostname", cs "host_name", cs "computer", cs "machine",
    cs "device", cs "devicename", cs "host", cs "computername",
    cs "workstation", cs "server", cs "endpoint"]),
  (cs "user", [cs "username", cs "user_name", cs "account", cs "actor",
    cs "principal", cs "userid", cs "user_id", cs "accountname", cs "user",
    cs "login", cs "identity"]),
  (cs "src_ip", [cs "source_ip", cs "sourceip", cs "src", cs "client_ip",
    cs "remote_ip", cs "srcip", cs "source_address", cs "src_addr",
    cs "source", cs "client_address"]),
  (cs "dest_ip", [cs "destination_ip", cs "destip", cs "dst", cs "target_ip",
    cs "dest", cs "dstip", cs "destination_address", cs "dst_addr",
    cs "destination", cs "server_ip"]),
  (cs "src_port", [cs "source_port", cs "srcport", cs "sport", cs "src_port",
    cs "client_port"]),
  (cs "dest_port", [cs "destination_port", cs "dstport", cs "dport",
    cs "dest_port", cs "server_port", cs "port"]),
  (cs "process_name", [cs "process", cs "process_name", cs "image",
    cs "imagepath", cs "executable", cs "exe", cs "program",
    cs "application", cs "process_image"]),
  (cs "process_cmdline", [cs "command_line", cs "commandline", cs "cmdline",
    cs "cmd", cs "command", cs "process_commandline", cs "arguments"]),
  (cs "file_path", [cs "filepath", cs "file_path", cs "path", cs "filename",
    cs "file_name", cs "object_name", cs "target_path"]),
  (cs "file_hash", [cs "hash", cs "md5", cs "sha256", cs "sha1",
    cs "filehash", cs "file_hash", cs "checksum"]),
  (cs "outcome", [cs "outcome", cs "result", cs "status", cs "success",
    cs "verdict", cs "disposition"]),
  (cs "severity", [cs "severity", cs "level", cs "priority", cs "risk",
    cs "risk_level", cs "importance"]),
  (cs "message", [cs "message", cs "msg", cs "description", cs "details",
    cs "summary", cs "raw", cs "raw_message", cs "log_message"]),
  (cs "url", [cs "url", cs "uri", cs "link", cs "web_address",
    cs "request_url", cs "target_url"]),
  (cs "dns_query", [cs "query", cs "dns_query", cs "domain", cs "fqdn",
    cs "dns_name", cs "requested_domain"]),
  (cs "protocol", [cs "protocol", cs "proto", cs "app_protocol",
    cs "network_protocol"]),
  (cs "bytes_in", [cs "bytes_in", cs "received_bytes", cs "rx_bytes",
    cs "in_bytes", cs "download"]),
  (cs "bytes_out", [cs "bytes_out", cs "sent_bytes", cs "tx_bytes",
    cs "out_bytes", cs "upload"]),
  (cs "tactic", [cs "tactic", cs "mitre_tactic", cs "attack_tactic"]),
  (cs "technique", [cs "technique", cs "mitre_technique",
    cs "attack_technique", cs "technique_id"])]

/-- Required fields that MUST be mapped for successful ingestion. -/
def REQUIRED_FIELDS : List (List Char) := [cs "event_ts", cs "event_type"]

/-- Entity fields that can be extracted for pivoting. -/
def ENTITY_FIELDS : List (List Char) :=
  [cs "host", cs "user", cs "src_ip", cs "dest_ip", cs "file_hash",
   cs "process_name"]

/-- Inner loop of `suggestMapping`: scan one unified field's pattern list;
for each pattern check exact equality, then containment in either
direction. -/
def scanPatterns (unified : List Char) (patterns : List (List Char))
    (normalized : List Char) : Option (List Char) :=
  match patterns with
  | [] => none
  | p :: rest =>
    if normalized == p then some unified
    else if strIncludes normalized p || strIncludes p normalized then some unified
    else scanPatterns unified rest normalized

/-- Outer loop of `suggestMapping`: the `for (const [unified, patterns] of
Object.entries(FIELD_PATTERNS))` walk, first hit wins. -/
def scanTable : List (List Char × List (List Char)) → List Char → Option (List Char)
  | [], _ => none
  | (u, pats) :: rest, n =>
    match scanPatterns u pats n with
    | some r => some r
    | none => scanTable rest n

/-- `suggestMapping(sourceField)`: suggest a unified field for a source
field name. -/
def suggestMapping (sourceField : List Char) : Option (List Char) :=
  scanTable FIELD_PATTERNS (normalize sourceField)

/-- `getUnifiedFields()`. -/
def getUnifiedFields : List (List Char) := FIELD_PATTERNS.map Prod.fst

/-- The record returned by `validateMappings`. -/
structure ValidationResult where
  valid : Bool
  missing : List (List Char)
deriving DecidableEq

/-- `validateMappings(mappings)`: a mapping (JS object in entry order,
values `string | null`) is valid when every required field is some entry's
value. -/
def validateMappings (mappings : List (List Char × Option (List Char))) :
    ValidationResult :=
  let mappedUnifiedFields := mappings.filterMap Prod.snd
  let missing := REQUIRED_FIELDS.filter (fun r => !(mappedUnifiedFields.contains r))
  ⟨missing.isEmpty, missing⟩

/-- `suggestEntityFields(mappings)`: source fields whose (truthy) unified
field is one of `ENTITY_FIELDS`. -/
def suggestEntityFields (mappings : List (List Char × Option (List Char))) :
    List (List Char) :=
  mappings.filterMap (fun p =>
    match p.2 with
    | some u => if !u.isEmpty && ENTITY_FIELDS.contains u then some p.1 else none
    | none => none)

/-- One character of the normalization pipeline: lower-case, then collapse
separators. -/
def normChar (c : Char) : Char := collapseSep (lowerAscii c)

/-- The separator characters the normalization makes interchangeable. -/
def isSepChar (c : Char) : Bool := c == ' ' || c == '-' || c == '_'

/-- Two source names differ only in letter case or in the choice of
separator character (space, hyphen, underscore), position by position. -/
def sepCaseEquiv : List Char → List Char → Bool
  | [], [] => true
  | c :: s, d :: t =>
    ((isSepChar c && isSepChar d) || (lowerAscii c == lowerAscii d))
      && sepCaseEquiv s t
  | _, _ => false

end FieldSuggestions

/-! ## Batch-ingest wizard store (useIngestStore) -/

namespace IngestStore

/-- JS truthiness of a `string | undefined` lookup result: present and
non-empty. -/
def jsTruthy (o : Option (List Char)) : Bool :=
  match o with
  | some v => !v.isEmpty
  | none => false

/-- The JS idiom `x || null` on a `string | undefined` value: the string
when truthy, otherwise null. -/
def jsOrNull (o : Option (List Char)) : Option (List Char) :=
  match o with
  | some v => if v.isEmpty then none else some v
  | none => none

/-- The fields of `PreviewResponse` that the store reads
(`preview_rows`, `file_format` and `mapper_type` are display-only). -/
structure PreviewResponse where
  source_fields : List (List Char)
  total_rows : Nat
  suggested_mappings : List (List Char × List Char)
deriving DecidableEq

/-- One entry of the wizard's file list.  The `file`, `isLoading` and
`error` fields never influence the modelled operations (`file` is always
a truthy object in `canProceed`), so they are not carried. -/
structure FileEntry where
  id : Nat
  source : List Char
  queryName : List Char
  previewData : Option PreviewResponse
deriving DecidableEq

/-- `fieldSourcesMap[field].push(file.id)`, creating the entry first when
absent, as `buildMergedSchema` does. -/
def upsertPush (m : List (List Char × List Nat)) (field : List Char)
    (fileId : Nat) : List (List Char × List Nat) :=
  if (List.lookup field m).isSome then
    m.map (fun p => if p.1 == field then (p.1, p.2 ++ [fileId]) else p)
  else m ++ [(field, [fileId])]

/-- The body of `buildMergedSchema`'s inner loop for one `field`: record
the field's file, and record its suggested mapping when the field has
none yet and this file's suggestion is truthy (first one wins). -/
def ingestField (fileId : Nat) (sugg : List (List Char × List Char))
    (st : List (List Char × List Nat) × List (List Char × List Char))
    (field : List Char) :
    List (List Char × List Nat) × List (List Char × List Char) :=
  let fsm := upsertPush st.1 field fileId
  let am :=
    if !(jsTruthy (List.lookup field st.2)) && jsTruthy (List.lookup field sugg)
    then st.2 ++ [(field, (List.lookup field sugg).getD [])]
    else st.2
  (fsm, am)

/-- One file of `buildMergedSchema`'s outer loop (the
`if (!file.previewData) continue` guard included). -/
def ingestFile (st : List (List Char × List Nat) × List (List Char × List Char))
    (file : FileEntry) :
    List (List Char × List Nat) × List (List Char × List Char) :=
  match file.previewData with
  | none => st
  | some pv => pv.source_fields.foldl (ingestField file.id pv.suggested_mappings) st

/-- The sort order of JS `Array.prototype.sort()` without comparator:
lexicographic by UTF-16 code unit. -/
def lexLe : List Char → List Char → Bool
  | [], _ => true
  | _ :: _, [] => false
  | a :: as_, b :: bs =>
    if a.toNat < b.toNat then true
    else if b.toNat < a.toNat then false
    else lexLe as_ bs

/-- `lexLe` as a relation, for the sorting lemmas. -/
def lexR (a b : List Char) : Prop := lexLe a b = true

instance : DecidableRel lexR := fun a b => by unfold lexR; infer_instance

/-- The local `entityPatterns` list of `buildMergedSchema`. -/
def entityPatterns : List (List Char) :=
  [cs "host", cs "user", cs "src_ip", cs "dest_ip", cs "file_hash",
   cs "process_name"]

/-- The slice of the store state written by `buildMergedSchema`. -/
structure MergedSchema where
  workingSchema : List (List Char)
  fieldSources : List (List Char × List Nat)
  fieldMappings : List (List Char × Option (List Char))
  entityFields : List (List Char)
deriving DecidableEq

/-- `buildMergedSchema()` on a given file list: merge the source fields of
every previewed file, sort the union, seed the mappings from the
first-winning suggestions, and auto-select entity fields. -/
def buildMergedSchema (files : List FileEntry) : MergedSchema :=
  let filesWithPreviews := files.filter (fun f => f.previewData.isSome)
  let st := filesWithPreviews.foldl ingestFile ([], [])
  let workingSchema := List.insertionSort lexR (st.1.map Prod.fst)
  let fieldMappings :=
    workingSchema.map (fun field => (field, jsOrNull (List.lookup field st.2)))
  let entityFields :=
    st.2.filterMap (fun p => if entityPatterns.contains p.2 then some p.1 else none)
  ⟨workingSchema, st.1, fieldMappings, entityFields⟩

/-- The wizard's step enumeration. -/
inductive IngestStep where
  | files | schema | mapping | entities | confirm | ingesting | complete
deriving DecidableEq

/-- The slice of the store state read by `canProceed`. -/
structure IngestState where
  step : IngestStep
  files : List FileEntry
  fieldMappings : List (List Char × Option (List Char))
deriving DecidableEq

/-- JS `String.prototype.trim()` on the ASCII range. -/
def jsTrim (s : List Char) : List Char :=
  ((s.dropWhile isJsSpace).reverse.dropWhile isJsSpace).reverse
where isJsSpace := FieldSuggestions.isJsSpace

/-- `canProceed()`: the wizard's per-step gate. -/
def canProceed (s : IngestState) : Bool :=
  match s.step with
  | .files =>
    decide (0 < (s.files.filter (fun f =>
      !(jsTrim f.source).isEmpty && !(jsTrim f.queryName).isEmpty)).length)
  | .schema =>
    ((s.files.filter (fun f => f.previewData.isSome)).length == s.files.length)
      && decide (0 < s.files.length)
  | .mapping =>
    (s.fieldMappings.map Prod.snd).contains (some (cs "event_ts"))
      && (s.fieldMappings.map Prod.snd).contains (some (cs "event_type"))
  | .entities => true
  | .confirm => true
  | .ingesting => false
  | .complete => false

/-- The suggestion a single previewed file offers for `field`: its truthy
`suggested_mappings[field]` when `field` is one of its source fields. -/
def fileSuggest (pv : PreviewResponse) (field : List Char) : Option (List Char) :=
  if pv.source_fields.contains field
  then jsOrNull (List.lookup field pv.suggested_mappings)
  else none

/-- The suggested mapping of `field` according to the first previewed file,
in file-list order, that suggests one. -/
def firstSuggestion : List FileEntry → List Char → Option (List Char)
  | [], _ => none
  | file :: rest, field =>
    match file.previewData with
    | none => firstSuggestion rest field
    | some pv =>
      match fileSuggest pv field with
      | some v => some v
      | none => firstSuggestion rest field


/-- A sample preview: two source fields with their server-side
suggestions. -/
def pvDemo1 : PreviewResponse :=
  ⟨[cs "Host", cs "ts"], 10, [(cs "Host", cs "host"), (cs "ts", cs "event_ts")]⟩

/-- A second sample preview sharing the "ts" field. -/
def pvDemo2 : PreviewResponse :=
  ⟨[cs "ts", cs "user"], 5, [(cs "ts", cs "event_ts"), (cs "user", cs "user")]⟩

/-- Two previewed files for exercising `buildMergedSchema`. -/
def demoFiles : List FileEntry :=
  [⟨1, cs "okta", cs "q1", some pvDemo1⟩, ⟨2, cs "aws", cs "q2", some pvDemo2⟩]

end IngestStore

/-! ## Relational schema (cli/schema.sql) -/

namespace Schema

/-- One row of the `events` table; `NOT NULL` columns are plain `String`,
nullable columns `Option String`. -/
structure EventRow where
  event_pk : Nat
  case_id : String
  run_id : String
  event_ts : String
  source : String
  event_type : String
  host : Option String
  user : Option String
  src_ip : Option String
  dest_ip : Option String
  process_name : Option String
  process_cmdline : Option String
  file_hash : Option String
  outcome : Option String
  severity : Option String
  message : Option String
  source_event_id : Option String
  raw_ref : Option String
  raw_json : Option String
  fingerprint : Option String
deriving DecidableEq

/-- Two rows collide on the partial unique index
`idx_events_unique_source_event ON events(case_id, source, source_event_id)
WHERE source_event_id IS NOT NULL`. -/
def sameSourceEventKey (a b : EventRow) : Prop :=
  a.case_id = b.case_id ∧ a.source = b.source ∧
    a.source_event_id = b.source_event_id ∧ a.source_event_id ≠ none

instance (a b : EventRow) : Decidable (sameSourceEventKey a b) := by
  unfold sameSourceEventKey; infer_instance

/-- Two rows collide on the partial unique index
`idx_events_unique_fingerprint ON events(case_id, fingerprint)
WHERE fingerprint IS NOT NULL`. -/
def sameFingerprintKey (a b : EventRow) : Prop :=
  a.case_id = b.case_id ∧ a.fingerprint = b.fingerprint ∧ a.fingerprint ≠ none

instance (a b : EventRow) : Decidable (sameFingerprintKey a b) := by
  unfold sameFingerprintKey; infer_instance

/-- A list of `events` rows admitted by the two partial unique indexes. -/
def eventsOk (rows : List EventRow) : Prop :=
  rows.Pairwise (fun a b => ¬ sameSourceEventKey a b ∧ ¬ sameFingerprintKey a b)

instance (rows : List EventRow) : Decidable (eventsOk rows) := by
  unfold eventsOk; infer_instance

/-- An `INSERT` into `events` under the two unique indexes: rejected
(`none`) exactly when the new row collides with a stored one. -/
def insertEvent (rows : List EventRow) (r : EventRow) : Option (List EventRow) :=
  if rows.any (fun e =>
      decide (sameSourceEventKey e r) || decide (sameFingerprintKey e r))
  then none
  else some (rows ++ [r])

/-- The events-table states reachable by successful inserts from empty. -/
inductive EventsReachable : List EventRow → Prop
  | empty : EventsReachable []
  | step (rows rows2 : List EventRow) (r : EventRow) :
      EventsReachable rows → insertEvent rows r = some rows2 →
      EventsReachable rows2

/-- One row of the `entities` table. -/
structure EntityRow where
  entity_id : Nat
  case_id : String
  entity_type : String
  entity_value : String
  first_seen : Option String
  last_seen : Option String
  notes : Option String
  tags : Option String
deriving DecidableEq

/-- The tables an `entities` row depends on: the `cases` primary keys and
the `entities` rows themselves. -/
structure EntitiesDb where
  cases : List String
  entities : List EntityRow
deriving DecidableEq

/-- A database state admitted by the `entities` schema: the declared
constraints are the `entity_id` primary key and the `case_id` foreign key
(schema.sql declares no unique index over the `entities` columns). -/
def entitiesOk (db : EntitiesDb) : Prop :=
  db.entities.Pairwise (fun a b => a.entity_id ≠ b.entity_id) ∧
    ∀ e ∈ db.entities, e.case_id ∈ db.cases

instance (db : EntitiesDb) : Decidable (entitiesOk db) := by
  unfold entitiesOk; infer_instance

/-- An `INSERT` into `entities` under the declared constraints: rejected
only on a primary-key collision or a missing case. -/
def insertEntity (db : EntitiesDb) (r : EntityRow) : Option EntitiesDb :=
  if db.entities.any (fun e => e.entity_id == r.entity_id)
      || !(db.cases.contains r.case_id)
  then none
  else some ⟨db.cases, db.entities ++ [r]⟩

/-- A sample event row with a native source identifier. -/
def evtA : EventRow :=
  { event_pk := 1, case_id := "c1", run_id := "r1",
    event_ts := "2024-01-01T00:00:00Z", source := "okta",
    event_type := "login", host := none, user := some "alice",
    src_ip := none, dest_ip := none, process_name := none,
    process_cmdline := none, file_hash := none, outcome := none,
    severity := none, message := none, source_event_id := some "E1",
    raw_ref := none, raw_json := none, fingerprint := none }

/-- A second copy of the same source event (fresh primary key, same
`(case_id, source, source_event_id)`). -/
def evtB : EventRow := { evtA with event_pk := 2 }

/-- A sample entity row. -/
def entAlpha : EntityRow :=
  { entity_id := 1, case_id := "c1", entity_type := "host",
    entity_value := "web01", first_seen := some "2024-01-01T00:00:00Z",
    last_seen := some "2024-01-02T00:00:00Z", notes := none, tags := none }

/-- A second entity row with the same `(case_id, entity_type,
entity_value)` triple and a fresh `entity_id`. -/
def entBeta : EntityRow := { entAlpha with entity_id := 2 }

/-- An entities-table state holding both copies of the triple. -/
def dupDb : EntitiesDb := ⟨["c1"], [entAlpha, entBeta]⟩

end Schema

/-! ## Pivot serialization (usePivotStore) -/

namespace PivotStore

/-- JS strings in this module are lists of Unicode code points, since
`encodeURIComponent` works on code points and their UTF-8 bytes. -/
abbrev JStr := List Nat

/-- The code points of a string literal. -/
def codes (s : String) : JStr := s.data.map Char.toNat

/-- A Unicode scalar value: what a well-formed JS string element encodes
(lone surrogates make `encodeURIComponent` throw and are outside the
model). -/
def IsScalarCp (c : Nat) : Prop := c < 1114112 ∧ ¬(55296 ≤ c ∧ c ≤ 57343)

instance (c : Nat) : Decidable (IsScalarCp c) := by
  unfold IsScalarCp; infer_instance

/-- An ASCII digit, as a code point. -/
def isDigitCp (c : Nat) : Bool := 48 ≤ c && c ≤ 57

/-- An ASCII letter, as a code point. -/
def isAlphaCp (c : Nat) : Bool := (65 ≤ c && c ≤ 90) || (97 ≤ c && c ≤ 122)

/-- One of the nine unreserved marks of `encodeURIComponent`
(hyphen, underscore, dot, bang, tilde, star, apostrophe, parens). -/
def isMarkCp (c : Nat) : Bool :=
  c == 45 || c == 95 || c == 46 || c == 33 || c == 126 || c == 42 ||
    c == 39 || c == 40 || c == 41

/-- The code points `encodeURIComponent` leaves as-is. -/
def unreservedCp (c : Nat) : Bool := isDigitCp c || isAlphaCp c || isMarkCp c

/-- The UTF-8 bytes of a scalar value. -/
def utf8Bytes (c : Nat) : List Nat :=
  if c < 128 then [c]
  else if c < 2048 then [192 + c / 64, 128 + c % 64]
  else if c < 65536 then [224 + c / 4096, 128 + c / 64 % 64, 128 + c % 64]
  else [240 + c / 262144, 128 + c / 4096 % 64, 128 + c / 64 % 64, 128 + c % 64]

/-- The upper-case hex digit (as a code point) of a value below 16. -/
def hexDigit (n : Nat) : Nat := if n < 10 then 48 + n else 55 + n

/-- A byte as a `%XX` escape. -/
def pctEncodeByte (b : Nat) : List Nat := [37, hexDigit (b / 16), hexDigit (b % 16)]

/-- `encodeURIComponent` on one code point. -/
def encChar (c : Nat) : JStr :=
  if unreservedCp c then [c] else ((utf8Bytes c).map pctEncodeByte).flatten

/-- `encodeURIComponent` on a string. -/
def encodeURIComponent (s : JStr) : JStr := (s.map encChar).flatten

/-- The value of a hex-digit code point (either case), or `none`. -/
def hexVal (d : Nat) : Option Nat :=
  if 48 ≤ d && d ≤ 57 then some (d - 48)
  else if 65 ≤ d && d ≤ 70 then some (d - 55)
  else if 97 ≤ d && d ≤ 102 then some (d - 87)
  else none

/-- One `%XX` escape at the head of the input: the byte value and the
rest. -/
def pctByte : JStr → Option (Nat × JStr)
  | 37 :: h1 :: h2 :: r =>
    match hexVal h1, hexVal h2 with
    | some a, some b => some (16 * a + b, r)
    | _, _ => none
  | _ => none

/-- A UTF-8 continuation byte. -/
def contOk (b : Nat) : Bool := 128 ≤ b && b < 192

/-- The continuation of a two-byte UTF-8 sequence with lead byte `B`,
with the overlong check. -/
def decode2 (B : Nat) (r : JStr) : Option (Nat × JStr) :=
  match pctByte r with
  | none => none
  | some (B2, r2) =>
    if contOk B2 then
      let cp := (B - 192) * 64 + (B2 - 128)
      if 128 ≤ cp then some (cp, r2) else none
    else none

/-- The continuation of a three-byte UTF-8 sequence, with the overlong and
surrogate checks. -/
def decode3 (B : Nat) (r : JStr) : Option (Nat × JStr) :=
  match pctByte r with
  | none => none
  | some (B2, r1) =>
    match pctByte r1 with
    | none => none
    | some (B3, r2) =>
      if contOk B2 && contOk B3 then
        let cp := (B - 224) * 4096 + (B2 - 128) * 64 + (B3 - 128)
        if 2048 ≤ cp && !(55296 ≤ cp && cp ≤ 57343) then some (cp, r2) else none
      else none

/-- The continuation of a four-byte UTF-8 sequence, with the overlong and
range checks. -/
def decode4 (B : Nat) (r : JStr) : Option (Nat × JStr) :=
  match pctByte r with
  | none => none
  | some (B2, r1) =>
    match pctByte r1 with
    | none => none
    | some (B3, rx) =>
      match pctByte rx with
      | none => none
      | some (B4, r2) =>
        if (contOk B2 && contOk B3) && contOk B4 then
          let cp := (B - 240) * 262144 + (B2 - 128) * 4096 +
            (B3 - 128) * 64 + (B4 - 128)
          if 65536 ≤ cp && cp < 1114112 then some (cp, r2) else none
        else none

/-- One decoded character of `decodeURIComponent`: a percent escape opens
a UTF-8 sequence (decoded with the standard validity checks), any other
code point stands for itself; `none` models the thrown `URIError`. -/
def decodeGroup : JStr → Option (Nat × JStr)
  | [] => none
  | c :: t =>
    if c == 37 then
      match pctByte (c :: t) with
      | none => none
      | some (B, r) =>
        if B < 128 then some (B, r)
        else if B < 192 then none
        else if B < 224 then decode2 B r
        else if B < 240 then decode3 B r
        else if B < 248 then decode4 B r
        else none
    else some (c, t)

/-- The decoding loop, indexed by fuel; a group always consumes at least
one code point, so fuel equal to the input length (what `decodeURI`
passes) always suffices. -/
def decodeLoop : Nat → JStr → Option JStr
  | _, [] => some []
  | 0, _ :: _ => none
  | fuel + 1, c :: t =>
    match decodeGroup (c :: t) with
    | none => none
    | some (cp, r) => (decodeLoop fuel r).map (cp :: ·)

/-- `decodeURIComponent`. -/
def decodeURI (s : JStr) : Option JStr := decodeLoop s.length s

/-- A pivot entity: an entry of the AND filter chain. -/
structure PivotEntity where
  type : JStr
  column : JStr
  value : JStr
deriving DecidableEq

/-- Map entity types to column names. -/
def ENTITY_COLUMN_MAP : List (JStr × JStr) :=
  [(codes "host", codes "host"), (codes "user", codes "user"),
   (codes "ip", codes "src_ip"), (codes "hash", codes "file_hash"),
   (codes "process", codes "process_name")]

/-- `createPivotEntity(type, value)`: the column is
`ENTITY_COLUMN_MAP[type] || type` (the map's values are all truthy). -/
def createPivotEntity (type_ value : JStr) : PivotEntity :=
  ⟨type_, (List.lookup type_ ENTITY_COLUMN_MAP).getD type_, value⟩

/-- JS `Array.prototype.join(sep)` on already-built strings. -/
def joinSep (sep : JStr) : List JStr → JStr
  | [] => []
  | [x] => x
  | x :: y :: xs => x ++ sep ++ joinSep sep (y :: xs)

/-- `serializePivots(entities)`: the URL parameter
`type:encodeURIComponent(value),...`. -/
def serializePivots (entities : List PivotEntity) : JStr :=
  if entities.isEmpty then []
  else joinSep [44]
    (entities.map (fun e => e.type ++ [58] ++ encodeURIComponent e.value))

/-- JS `String.prototype.split(sep)` for a one-code-point separator: the
result always has at least one (possibly empty) piece. -/
def splitOnCp (sep : Nat) : JStr → List JStr
  | [] => [[]]
  | c :: rest =>
    let r := splitOnCp sep rest
    if c == sep then [] :: r
    else
      match r with
      | [] => [[c]]
      | h :: t => (c :: h) :: t

/-- `deserializePivots(param)`: split on commas, destructure each part at
its first colon, decode the value; a decode failure makes the whole call
return `[]` (the `try/catch`). -/
def deserializePivots (param : Option JStr) : List PivotEntity :=
  match param with
  | none => []
  | some s =>
    if s.isEmpty then []
    else
      match (splitOnCp 44 s).mapM (fun part =>
          let pieces := splitOnCp 58 part
          match decodeURI (pieces.getD 1 []) with
          | some v => some (createPivotEntity (pieces.headD []) v)
          | none => none) with
      | some res => res
      | none => []

end PivotStore

/-! ## Case session store (useCaseStore) -/

namespace CaseStore

/-- The slice of the case store state the modelled actions touch. -/
structure CaseState where
  selectedCaseId : Option String
  recentEntities : List (String × String)
deriving DecidableEq

/-- The store's actions over that slice. -/
inductive CaseAction where
  | setSelectedCaseId (caseId : Option String)
  | addRecentEntity (type_ value : String)
  | clearRecentEntities
deriving DecidableEq

/-- One store action: `setSelectedCaseId` clears the recents when the case
changes; `addRecentEntity` de-duplicates, pushes to the front and keeps
ten; `clearRecentEntities` empties. -/
def caseStep (s : CaseState) (a : CaseAction) : CaseState :=
  match a with
  | .setSelectedCaseId caseId =>
    if s.selectedCaseId ≠ caseId then ⟨caseId, []⟩ else ⟨caseId, s.recentEntities⟩
  | .addRecentEntity type_ value =>
    let filtered := s.recentEntities.filter
      (fun e => !(e.1 == type_ && e.2 == value))
    ⟨s.selectedCaseId, ((type_, value) :: filtered).take 10⟩
  | .clearRecentEntities => ⟨s.selectedCaseId, []⟩

/-- The persisted store's initial state. -/
def initialCaseState : CaseState := ⟨none, []⟩

/-- Run a sequence of store actions from the initial state. -/
def caseRun (acts : List CaseAction) : CaseState :=
  acts.foldl caseStep initialCaseState

/-- The recents invariant: pairwise-distinct `(type, value)` pairs, at
most ten of them. -/
def recentOk (l : List (String × String)) : Prop := l.Nodup ∧ l.length ≤ 10

end CaseStore

/-! ## Theorems -/

namespace FieldSuggestions

/-- Unfolding membership in the non-null values of a mapping object. -/
lemma mem_filterMap_snd (m : List (List Char × Option (List Char)))
    (u : List Char) : u ∈ m.filterMap Prod.snd ↔ ∃ s, (s, some u) ∈ m := by
  simp only [List.mem_filterMap]
  constructor
  · rintro ⟨⟨s, v⟩, hm, hv⟩
    cases hv
    exact ⟨s, hm⟩
  · rintro ⟨s, hm⟩
    exact ⟨(s, some u), hm, rfl⟩

/-- Unfolding membership in `Object.values` of a mapping object. -/
lemma mem_map_snd (m : List (List Char × Option (List Char)))
    (u : List Char) : some u ∈ m.map Prod.snd ↔ ∃ s, (s, some u) ∈ m := by
  simp only [List.mem_map]
  constructor
  · rintro ⟨⟨s, v⟩, hm, hv⟩
    cases hv
    exact ⟨s, hm⟩
  · rintro ⟨s, hm⟩
    exact ⟨(s, some u), hm, rfl⟩

end FieldSuggestions

open FieldSuggestions IngestStore in
/-- C1: `validateMappings` returns `valid = true` exactly when some source
field is mapped to `event_ts` and some source field to `event_type`;
`missing` holds exactly the required fields no source field maps to; and
the wizard's `canProceed` at the `mapping` step agrees, so a mapping
missing either field is rejected. -/
theorem required_field_gate (m : List (List Char × Option (List Char))) :
    (((validateMappings m).valid = true) ↔
      ((∃ s, (s, some (cs "event_ts")) ∈ m) ∧ (∃ s, (s, some (cs "event_type")) ∈ m)))
    ∧ (∀ r, r ∈ (validateMappings m).missing ↔
        (r ∈ REQUIRED_FIELDS ∧ ¬ ∃ s, (s, some r) ∈ m))
    ∧ ∀ st : IngestState, st.step = IngestStep.mapping → st.fieldMappings = m →
        (canProceed st = true ↔
          ((∃ s, (s, some (cs "event_ts")) ∈ m) ∧ (∃ s, (s, some (cs "event_type")) ∈ m))) := by
  refine ⟨?_, ?_, ?_⟩
  · simp [validateMappings, List.isEmpty_iff, List.filter_eq_nil_iff,
      REQUIRED_FIELDS, mem_filterMap_snd]
  · intro r
    simp [validateMappings, List.mem_filter, mem_filterMap_snd]
  · rintro ⟨step, files, fm⟩ hstep hm
    cases hstep
    cases hm
    simp [canProceed, mem_map_snd]

/-- C1 at a concrete mapping: a mapping covering both required fields
validates. -/
theorem required_field_gate_check :
    (FieldSuggestions.validateMappings
      [(cs "ts", some (cs "event_ts")), (cs "kind", some (cs "event_type"))]).valid
      = true :=
  (required_field_gate _).1.mpr ⟨⟨cs "ts", by decide⟩, ⟨cs "kind", by decide⟩⟩

namespace FieldSuggestions

/-- The inner pattern scan hits exactly when some pattern matches. -/
lemma scanPatterns_eq (u : List Char) (pats : List (List Char)) (n : List Char) :
    scanPatterns u pats n =
      if pats.any (fun p => n == p || (strIncludes n p || strIncludes p n))
      then some u else none := by
  induction pats with
  | nil => simp [scanPatterns]
  | cons p rest ih =>
    simp only [scanPatterns, List.any_cons]
    by_cases h1 : (n == p) = true
    · simp [h1]
    · by_cases h2 : (strIncludes n p || strIncludes p n) = true
      · simp [h1, h2]
      · simp [h1, h2, ih]

/-- The table scan is the first table entry any of whose patterns
matches. -/
lemma scanTable_eq (table : List (List Char × List (List Char))) (n : List Char) :
    scanTable table n =
      (table.find? (fun e => e.2.any (fun p =>
        n == p || (strIncludes n p || strIncludes p n)))).map Prod.fst := by
  induction table with
  | nil => simp [scanTable]
  | cons e rest ih =>
    obtain ⟨u, pats⟩ := e
    simp only [scanTable, scanPatterns_eq]
    by_cases h : pats.any (fun p => n == p || (strIncludes n p || strIncludes p n)) = true
    · simp [List.find?_cons, h]
    · simp [List.find?_cons, h, ih]

end FieldSuggestions

open FieldSuggestions in
/-- C2 (amended): `suggestMapping` walks `FIELD_PATTERNS` in table order
and returns the first unified field one of whose alias patterns matches
the normalized name (exact equality or containment in either direction,
checked together per pattern); an exact alias of a later field does not
take precedence over an earlier containment match. -/
theorem suggest_mapping_first_match (s : List Char) :
    suggestMapping s =
      (FIELD_PATTERNS.find? (fun e => e.2.any (fun p =>
        normalize s == p ||
          (strIncludes (normalize s) p || strIncludes p (normalize s))))).map
        Prod.fst :=
  scanTable_eq FIELD_PATTERNS (normalize s)

open FieldSuggestions in
/-- C2 counterexample: "port" normalizes to itself and exactly equals an
alias pattern of `dest_port`, yet `suggestMapping` returns `src_port`,
which claims it earlier only by substring containment (in
"source_port"). -/
theorem suggest_mapping_exact_alias_cex :
    normalize (cs "port") = cs "port"
    ∧ cs "port" ∈ (List.lookup (cs "dest_port") FIELD_PATTERNS).getD []
    ∧ cs "port" ∉ (List.lookup (cs "src_port") FIELD_PATTERNS).getD []
    ∧ suggestMapping (cs "port") = some (cs "src_port")
    ∧ cs "src_port" ≠ cs "dest_port" := by decide

open FieldSuggestions in
/-- C5: a source field whose normalized form neither equals, contains nor
is contained in any alias pattern is suggested `null`, and any returned
suggestion is a key of `FIELD_PATTERNS`. -/
theorem suggest_unmatched_null (s : List Char) :
    ((∀ e ∈ FIELD_PATTERNS, ∀ p ∈ e.2,
        ¬(normalize s = p ∨ strIncludes (normalize s) p = true ∨
          strIncludes p (normalize s) = true)) →
      suggestMapping s = none)
    ∧ (∀ u, suggestMapping s = some u → u ∈ FIELD_PATTERNS.map Prod.fst) := by
  constructor
  · intro h
    rw [suggestMapping, scanTable_eq, Option.map_eq_none', List.find?_eq_none]
    intro e he hpred
    obtain ⟨p, hp, hor⟩ := List.any_eq_true.mp hpred
    apply h e he p hp
    simpa [beq_iff_eq, Bool.or_eq_true] using hor
  · intro u hu
    rw [suggestMapping, scanTable_eq] at hu
    obtain ⟨e, he, hfst⟩ := Option.map_eq_some'.mp hu
    exact List.mem_map.mpr ⟨e, List.mem_of_find?_eq_some he, hfst⟩

open FieldSuggestions in
/-- C5 at concrete inputs: "qqq" matches nothing and maps to null; the
suggestion for "host" is a table key. -/
theorem suggest_unmatched_null_check :
    suggestMapping (cs "qqq") = none
    ∧ cs "host" ∈ FIELD_PATTERNS.map Prod.fst :=
  ⟨(suggest_unmatched_null (cs "qqq")).1 (by decide),
   (suggest_unmatched_null (cs "host")).2 (cs "host") (by decide)⟩

namespace FieldSuggestions

/-- The normalization as a per-character pipeline. -/
lemma normalize_cons (c : Char) (s : List Char) :
    normalize (c :: s) =
      if isKept (normChar c) then normChar c :: normalize s else normalize s := by
  simp [normalize, normChar, List.filter_cons]

/-- Separator characters all normalize to the underscore. -/
lemma normChar_sep (c : Char) (h : isSepChar c = true) : normChar c = '_' := by
  simp only [isSepChar, Bool.or_eq_true, beq_iff_eq] at h
  rcases h with (h | h) | h <;> subst h <;> decide

/-- Case- and separator-equivalent names normalize identically. -/
lemma sepCaseEquiv_normalize (s t : List Char) (h : sepCaseEquiv s t = true) :
    normalize s = normalize t := by
  induction s generalizing t with
  | nil =>
    cases t with
    | nil => rfl
    | cons d t => simp [sepCaseEquiv] at h
  | cons c s ih =>
    cases t with
    | nil => simp [sepCaseEquiv] at h
    | cons d t =>
      simp only [sepCaseEquiv, Bool.and_eq_true] at h
      have hchar : normChar c = normChar d := by
        rcases Bool.or_eq_true _ _ |>.mp h.1 with hsep | hlow
        · rcases Bool.and_eq_true _ _ |>.mp hsep with ⟨h1, h2⟩
          rw [normChar_sep c h1, normChar_sep d h2]
        · have : lowerAscii c = lowerAscii d := by simpa using hlow
          simp [normChar, this]
      rw [normalize_cons, normalize_cons, hchar, ih t h.2]

end FieldSuggestions

open FieldSuggestions in
/-- C6: `suggestMapping` depends only on the normalized form of the source
name, so two names differing only in letter case or separator choice
(space, hyphen, underscore) receive the same suggestion. -/
theorem suggestion_normalization_invariant (s t : List Char) :
    (normalize s = normalize t → suggestMapping s = suggestMapping t)
    ∧ (sepCaseEquiv s t = true → suggestMapping s = suggestMapping t) := by
  constructor
  · intro h
    rw [suggestMapping, suggestMapping, h]
  · intro h
    rw [suggestMapping, suggestMapping, sepCaseEquiv_normalize s t h]

open FieldSuggestions in
/-- C6 at a concrete pair: "Event-Time" and "event_time" get the same
suggestion. -/
theorem suggestion_normalization_check :
    suggestMapping (cs "Event-Time") = suggestMapping (cs "event_time") :=
  (suggestion_normalization_invariant _ _).2 (by decide)

namespace Schema

/-- The insert-time conflict scan as an existential. -/
lemma any_conflict_iff (rows : List EventRow) (r : EventRow) :
    (rows.any (fun e =>
        decide (sameSourceEventKey e r) || decide (sameFingerprintKey e r)) = true)
      ↔ ∃ e ∈ rows, sameSourceEventKey e r ∨ sameFingerprintKey e r := by
  simp [List.any_eq_true]

/-- A successful insert preserves the unique-index invariant. -/
lemma insertEvent_ok (rows : List EventRow) (r : EventRow)
    (rows2 : List EventRow) (hok : eventsOk rows)
    (h : insertEvent rows r = some rows2) : eventsOk rows2 := by
  unfold insertEvent at h
  split_ifs at h with hc
  cases h
  unfold eventsOk at hok ⊢
  rw [List.pairwise_append]
  refine ⟨hok, List.pairwise_singleton _ _, ?_⟩
  intro a ha b hb
  rw [List.mem_singleton] at hb
  rw [hb]
  have hno : ¬ ∃ e ∈ rows, sameSourceEventKey e r ∨ sameFingerprintKey e r :=
    fun hex => hc ((any_conflict_iff rows r).mpr hex)
  push_neg at hno
  exact hno a ha

/-- Every state reachable by inserts satisfies the invariant. -/
lemma reachable_events_ok (st : List EventRow) (h : EventsReachable st) :
    eventsOk st := by
  induction h with
  | empty => exact List.Pairwise.nil
  | step rows rows2 r hr hins ih => exact insertEvent_ok rows r rows2 ih hins

end Schema

open Schema in
/-- C3: under the two partial unique indexes, an insert into `events` is
rejected as a duplicate exactly when an existing row of the same case
shares its `(source, source_event_id)` (non-null) or its non-null
fingerprint; successful inserts preserve the no-two-rows invariant, and
every state reachable by inserts satisfies it. -/
theorem events_dedup_unique (rows : List Schema.EventRow) (r : Schema.EventRow)
    (hok : eventsOk rows) :
    ((insertEvent rows r = none) ↔
      ∃ e ∈ rows, sameSourceEventKey e r ∨ sameFingerprintKey e r)
    ∧ (∀ rows2, insertEvent rows r = some rows2 → eventsOk rows2)
    ∧ (∀ st, EventsReachable st → eventsOk st) := by
  refine ⟨?_, fun rows2 h => insertEvent_ok rows r rows2 hok h,
    fun st h => reachable_events_ok st h⟩
  rw [← any_conflict_iff]
  unfold insertEvent
  split_ifs with h
  · simp [h]
  · simp [h]

open Schema in
/-- C3 at a concrete state: re-inserting the same source event (fresh
primary key) is rejected. -/
theorem events_dedup_unique_check :
    Schema.insertEvent [Schema.evtA] Schema.evtB = none :=
  (events_dedup_unique [Schema.evtA] Schema.evtB (by decide)).1.mpr
    ⟨Schema.evtA, by decide, Or.inl (by decide)⟩

open Schema in
/-- C4 counterexample: a state the entities schema admits (distinct
primary keys, case present) holding two rows with the same
`(case_id, entity_type, entity_value)` triple. -/
theorem entities_dup_admitted_cex :
    Schema.entitiesOk Schema.dupDb
    ∧ Schema.entAlpha ∈ Schema.dupDb.entities
    ∧ Schema.entBeta ∈ Schema.dupDb.entities
    ∧ Schema.entAlpha ≠ Schema.entBeta
    ∧ Schema.entAlpha.case_id = Schema.entBeta.case_id
    ∧ Schema.entAlpha.entity_type = Schema.entBeta.entity_type
    ∧ Schema.entAlpha.entity_value = Schema.entBeta.entity_value := by decide

open Schema in
/-- C4 (amended): the `entities` schema enforces only the `entity_id`
primary key and the `case_id` foreign key; it places no uniqueness
constraint on `(case_id, entity_type, entity_value)`, so an insert of a
second row with the same triple under a fresh `entity_id` is accepted and
the resulting state, holding two rows with the triple, is still
admitted. -/
theorem entities_schema_admits_duplicate_triple (db : Schema.EntitiesDb)
    (r : Schema.EntityRow) (hok : entitiesOk db)
    (hfresh : ∀ e ∈ db.entities, e.entity_id ≠ r.entity_id)
    (hfk : r.case_id ∈ db.cases)
    (hdup : ∃ e ∈ db.entities, e.case_id = r.case_id ∧
      e.entity_type = r.entity_type ∧ e.entity_value = r.entity_value) :
    insertEntity db r = some ⟨db.cases, db.entities ++ [r]⟩
    ∧ entitiesOk ⟨db.cases, db.entities ++ [r]⟩
    ∧ ∃ a ∈ db.entities ++ [r], ∃ b ∈ db.entities ++ [r], a ≠ b ∧
        a.case_id = b.case_id ∧ a.entity_type = b.entity_type ∧
        a.entity_value = b.entity_value := by
  have hanyf : (db.entities.any (fun e => e.entity_id == r.entity_id)) = false := by
    rw [List.any_eq_false]
    intro e he
    simp [hfresh e he]
  have hcont : db.cases.contains r.case_id = true := by
    simpa [List.elem_eq_mem] using hfk
  refine ⟨?_, ?_, ?_⟩
  · unfold insertEntity
    rw [hanyf, hcont]
    rfl
  · obtain ⟨hpw, hfkall⟩ := hok
    refine ⟨?_, ?_⟩
    · rw [List.pairwise_append]
      refine ⟨hpw, List.pairwise_singleton _ _, ?_⟩
      intro a ha b hb
      rw [List.mem_singleton] at hb
      rw [hb]
      exact hfresh a ha
    · intro e he
      rcases List.mem_append.mp he with h | h
      · exact hfkall e h
      · rw [List.mem_singleton] at h
        rw [h]
        exact hfk
  · obtain ⟨e, he, htriple⟩ := hdup
    refine ⟨e, List.mem_append_left _ he, r, List.mem_append_right _ (by simp), ?_, htriple⟩
    intro hcontra
    exact hfresh e he (congrArg Schema.EntityRow.entity_id hcontra)

open Schema in
/-- C4 at a concrete state: inserting a second `(c1, host, web01)` row
with a fresh id succeeds. -/
theorem entities_schema_admits_duplicate_triple_check :
    Schema.insertEntity ⟨["c1"], [Schema.entAlpha]⟩ Schema.entBeta =
      some ⟨["c1"], [Schema.entAlpha] ++ [Schema.entBeta]⟩ :=
  (entities_schema_admits_duplicate_triple ⟨["c1"], [Schema.entAlpha]⟩
    Schema.entBeta (by decide) (by decide) (by decide)
    ⟨Schema.entAlpha, by decide, by decide⟩).1

namespace CaseStore

/-- Every store action preserves the recents invariant. -/
lemma caseStep_recentOk (s : CaseState) (a : CaseAction)
    (h : recentOk s.recentEntities) : recentOk (caseStep s a).recentEntities := by
  obtain ⟨hnd, hlen⟩ := h
  cases a with
  | setSelectedCaseId caseId =>
    simp only [caseStep]
    split_ifs
    · exact ⟨List.nodup_nil, by simp⟩
    · exact ⟨hnd, hlen⟩
  | addRecentEntity type_ value =>
    simp only [caseStep]
    constructor
    · apply List.Nodup.sublist (List.take_sublist _ _)
      refine List.nodup_cons.mpr ⟨?_, List.Nodup.filter _ hnd⟩
      intro hmem
      have hf := (List.mem_filter.mp hmem).2
      simp at hf
    · exact List.length_take_le _ _
  | clearRecentEntities =>
    simp only [caseStep]
    exact ⟨List.nodup_nil, by simp⟩

end CaseStore

open CaseStore in
/-- C10: every action sequence from the initial state leaves
`recentEntities` duplicate-free with length at most ten; `addRecentEntity`
places the new `(type, value)` at the front and removes any older copy
from the rest; `setSelectedCaseId` with a different case id resets the
list to empty. -/
theorem case_store_recent_invariant :
    (∀ acts : List CaseAction,
      (caseRun acts).recentEntities.Nodup ∧ (caseRun acts).recentEntities.length ≤ 10)
    ∧ (∀ (s : CaseState) (t v : String),
        ((caseStep s (CaseAction.addRecentEntity t v)).recentEntities.head? = some (t, v))
        ∧ ∀ x ∈ ((caseStep s (CaseAction.addRecentEntity t v)).recentEntities).tail,
            x ≠ (t, v))
    ∧ (∀ (s : CaseState) (caseId : Option String), s.selectedCaseId ≠ caseId →
        (caseStep s (CaseAction.setSelectedCaseId caseId)).recentEntities = []) := by
  refine ⟨?_, ?_, ?_⟩
  · intro acts
    suffices h : ∀ st, recentOk st.recentEntities →
        recentOk (acts.foldl caseStep st).recentEntities by
      exact h initialCaseState ⟨List.nodup_nil, by simp [initialCaseState]⟩
    induction acts with
    | nil => exact fun st h => h
    | cons a rest ih =>
      intro st hst
      exact ih (caseStep st a) (caseStep_recentOk st a hst)
  · intro s t v
    constructor
    · simp only [caseStep]
      rw [List.take_cons]
      · rfl
      · omega
    · intro x hx
      simp only [caseStep] at hx
      rw [List.take_cons (by omega : 0 < 10)] at hx
      have hx2 := List.mem_of_mem_take (List.tail_cons ▸ hx)
      have hf := (List.mem_filter.mp hx2).2
      intro hxeq
      rw [hxeq] at hf
      simp at hf
  · intro s caseId hne
    simp only [caseStep]
    rw [if_pos hne]

open CaseStore in
/-- C10 at a concrete state: switching cases clears the recents. -/
theorem case_store_recent_check :
    (caseStep ⟨some "c1", [("host", "web01")]⟩
      (CaseAction.setSelectedCaseId (some "c2"))).recentEntities = [] :=
  case_store_recent_invariant.2.2 ⟨some "c1", [("host", "web01")]⟩ (some "c2")
    (by decide)

namespace IngestStore

/-- JS string comparison is total. -/
lemma lexLe_total (a b : List Char) : lexLe a b = true ∨ lexLe b a = true := by
  induction a generalizing b with
  | nil => left; simp [lexLe]
  | cons x xs ih =>
    cases b with
    | nil => right; simp [lexLe]
    | cons y ys =>
      simp only [lexLe]
      by_cases hxy : x.toNat < y.toNat
      · left; simp [hxy]
      · by_cases hyx : y.toNat < x.toNat
        · right; simp [hyx]
        · rcases ih ys with h | h
          · left; simp [hxy, hyx, h]
          · right; simp [hxy, hyx, h]

/-- JS string comparison is transitive. -/
lemma lexLe_trans (a b c : List Char) (h1 : lexLe a b = true)
    (h2 : lexLe b c = true) : lexLe a c = true := by
  induction a generalizing b c with
  | nil => simp [lexLe]
  | cons x xs ih =>
    cases b with
    | nil => simp [lexLe] at h1
    | cons y ys =>
      cases c with
      | nil => simp [lexLe] at h2
      | cons z zs =>
        simp only [lexLe] at h1 h2 ⊢
        by_cases h1a : x.toNat < y.toNat
        · by_cases h2a : y.toNat < z.toNat
          · simp [show x.toNat < z.toNat by omega]
          · by_cases h2b : z.toNat < y.toNat
            · simp [h2a, h2b] at h2
            · simp [show x.toNat < z.toNat by omega]
        · by_cases h1b : y.toNat < x.toNat
          · simp [h1a, h1b] at h1
          · simp only [h1a, h1b, if_false] at h1
            by_cases h2a : y.toNat < z.toNat
            · simp [show x.toNat < z.toNat by omega]
            · by_cases h2b : z.toNat < y.toNat
              · simp [h2a, h2b] at h2
              · simp only [h2a, h2b, if_false] at h2
                have hxz1 : ¬ x.toNat < z.toNat := by omega
                have hxz2 : ¬ z.toNat < x.toNat := by omega
                simp only [hxz1, hxz2, if_false]
                exact ih ys zs h1 h2

instance : IsTotal (List Char) lexR := ⟨fun a b => lexLe_total a b⟩

instance : IsTrans (List Char) lexR := ⟨fun a b c => lexLe_trans a b c⟩

end IngestStore

namespace IngestStore

/-- The keys of `upsertPush`: unchanged when present, appended when new. -/
lemma upsertPush_keys (m : List (List Char × List Nat)) (field : List Char)
    (fileId : Nat) :
    (upsertPush m field fileId).map Prod.fst =
      if (List.lookup field m).isSome then m.map Prod.fst
      else m.map Prod.fst ++ [field] := by
  unfold upsertPush
  split_ifs with h
  · rw [List.map_map]
    apply List.map_congr_left
    intro p _
    simp only [Function.comp_apply]
    split_ifs <;> rfl
  · simp

/-- A key is looked up successfully exactly when it is a key. -/
lemma lookup_isSome_mem {β : Type} (m : List (List Char × β)) (k : List Char) :
    (List.lookup k m).isSome ↔ k ∈ m.map Prod.fst := by
  induction m with
  | nil => constructor <;> intro h <;> exact absurd h (by simp)
  | cons p rest ih =>
    obtain ⟨a, b⟩ := p
    by_cases hka : k = a
    · subst hka
      rw [List.lookup_cons_self]
      exact iff_of_true rfl (List.mem_cons_self _ _)
    · have hbeq : (k == a) = false := by simp [hka]
      rw [List.lookup_cons, hbeq]
      constructor
      · intro h
        exact List.mem_cons_of_mem _ (ih.mp h)
      · intro h
        rcases List.mem_cons.mp h with h1 | h1
        · exact absurd h1 hka
        · exact ih.mpr h1

/-- Key membership after `upsertPush`. -/
lemma upsertPush_keys_mem (m : List (List Char × List Nat)) (field f : List Char)
    (fileId : Nat) :
    (f ∈ (upsertPush m field fileId).map Prod.fst)
      ↔ f ∈ m.map Prod.fst ∨ f = field := by
  rw [upsertPush_keys]
  split_ifs with h
  · rw [lookup_isSome_mem] at h
    constructor
    · exact Or.inl
    · rintro (hf | rfl)
      · exact hf
      · exact h
  · simp

/-- `upsertPush` keeps the keys duplicate-free. -/
lemma upsertPush_keys_nodup (m : List (List Char × List Nat)) (field : List Char)
    (fileId : Nat) (h : (m.map Prod.fst).Nodup) :
    ((upsertPush m field fileId).map Prod.fst).Nodup := by
  rw [upsertPush_keys]
  split_ifs with hs
  · exact h
  · rw [List.nodup_append]
    refine ⟨h, List.nodup_singleton _, ?_⟩
    intro f hf
    simp only [List.mem_singleton]
    intro heq
    rw [heq] at hf
    rw [← lookup_isSome_mem] at hf
    rw [hf] at hs
    exact hs rfl

/-- Looking a key up in a map built over a key list. -/
lemma lookup_map_self {β : Type} (l : List (List Char))
    (g : List Char → β) (f : List Char) :
    List.lookup f (l.map (fun x => (x, g x))) =
      if f ∈ l then some (g f) else none := by
  induction l with
  | nil => simp
  | cons a rest ih =>
    simp only [List.map_cons, List.lookup_cons]
    by_cases hfa : f = a
    · subst hfa
      simp
    · have hbeq : (f == a) = false := by simp [hfa]
      rw [hbeq, ih]
      simp [List.mem_cons, hfa]

/-- In an association list with duplicate-free keys, membership of a pair
is exactly a successful lookup. -/
lemma mem_iff_lookup {β : Type} (m : List (List Char × β))
    (hnd : (m.map Prod.fst).Nodup) (k : List Char) (v : β) :
    (k, v) ∈ m ↔ List.lookup k m = some v := by
  induction m with
  | nil => simp
  | cons p rest ih =>
    obtain ⟨a, b⟩ := p
    rw [List.map_cons, List.nodup_cons] at hnd
    by_cases hka : k = a
    · subst hka
      rw [List.lookup_cons_self]
      constructor
      · intro h
        rcases List.mem_cons.mp h with h | h
        · cases h
          rfl
        · exact absurd (List.mem_map.mpr ⟨(k, v), h, rfl⟩) hnd.1
      · intro h
        cases h
        exact List.mem_cons_self _ _
    · have hbeq : (k == a) = false := by simp [hka]
      rw [List.lookup_cons, hbeq, ← ih hnd.2]
      constructor
      · intro h
        rcases List.mem_cons.mp h with h | h
        · cases h
          exact absurd rfl hka
        · exact h
      · intro h
        exact List.mem_cons_of_mem _ h

end IngestStore

namespace IngestStore

/-- A successful lookup exhibits the pair. -/
lemma lookup_some_mem {β : Type} (m : List (List Char × β)) (k : List Char)
    (v : β) (h : List.lookup k m = some v) : (k, v) ∈ m := by
  obtain ⟨l1, l2, rfl, -⟩ := List.lookup_eq_some_iff.mp h
  exact List.mem_append_right _ (List.mem_cons_self _ _)

/-- A falsy string option simplifies to null under `x || null`. -/
lemma jsTruthy_false_orNull (o : Option (List Char))
    (h : jsTruthy o = false) : jsOrNull o = none := by
  cases o with
  | none => rfl
  | some v =>
    simp only [jsTruthy] at h
    simp only [jsOrNull]
    rw [if_pos]
    simpa using h

/-- The first component of one `ingestField` step. -/
lemma ingestField_fst (fileId : Nat) (sugg : List (List Char × List Char))
    (st : List (List Char × List Nat) × List (List Char × List Char))
    (field : List Char) :
    (ingestField fileId sugg st field).1 = upsertPush st.1 field fileId := rfl

/-- The second component of one `ingestField` step. -/
lemma ingestField_snd (fileId : Nat) (sugg : List (List Char × List Char))
    (st : List (List Char × List Nat) × List (List Char × List Char))
    (field : List Char) :
    (ingestField fileId sugg st field).2 =
      if !(jsTruthy (List.lookup field st.2)) && jsTruthy (List.lookup field sugg)
      then st.2 ++ [(field, (List.lookup field sugg).getD [])] else st.2 := rfl

/-- Folding one file's fields: values stay truthy, keys stay
duplicate-free, and a lookup sees the old binding first, else the file's
truthy suggestion for a field of this file. -/
lemma foldl_ingestField_am (fileId : Nat) (sugg : List (List Char × List Char))
    (fields : List (List Char)) :
    ∀ st : List (List Char × List Nat) × List (List Char × List Char),
      (∀ p ∈ st.2, p.2 ≠ ([] : List Char)) → ((st.2.map Prod.fst).Nodup) →
      (∀ p ∈ (fields.foldl (ingestField fileId sugg) st).2, p.2 ≠ ([] : List Char))
      ∧ (((fields.foldl (ingestField fileId sugg) st).2.map Prod.fst).Nodup)
      ∧ (∀ f, List.lookup f ((fields.foldl (ingestField fileId sugg) st).2) =
          match List.lookup f st.2 with
          | some v => some v
          | none => if fields.contains f then jsOrNull (List.lookup f sugg) else none) := by
  induction fields with
  | nil =>
    intro st hv hnd
    exact ⟨hv, hnd, fun f => by cases h : List.lookup f st.2 <;> simp [h]⟩
  | cons fl restf ih =>
    intro st hv hnd
    rw [List.foldl_cons]
    by_cases hcond :
        (!(jsTruthy (List.lookup fl st.2)) && jsTruthy (List.lookup fl sugg)) = true
    · have hsnd : (ingestField fileId sugg st fl).2 =
          st.2 ++ [(fl, (List.lookup fl sugg).getD [])] := by
        rw [ingestField_snd, if_pos hcond]
      obtain ⟨h1, h2⟩ := Bool.and_eq_true _ _ |>.mp hcond
      have htr : jsTruthy (List.lookup fl st.2) = false := by
        revert h1
        cases jsTruthy (List.lookup fl st.2) <;> simp
      have hnone : List.lookup fl st.2 = none := by
        cases hl : List.lookup fl st.2 with
        | none => rfl
        | some v =>
          exfalso
          have hvne := hv (fl, v) (lookup_some_mem _ _ _ hl)
          rw [hl] at htr
          simp only [jsTruthy, Bool.not_eq_false'] at htr
          exact hvne (List.isEmpty_iff.mp htr)
      have hvval : ∃ v, List.lookup fl sugg = some v ∧ v ≠ [] := by
        cases hs : List.lookup fl sugg with
        | none => rw [hs] at h2; simp [jsTruthy] at h2
        | some v =>
          refine ⟨v, rfl, ?_⟩
          rw [hs] at h2
          simp only [jsTruthy, Bool.not_eq_true'] at h2
          intro hveq
          rw [hveq] at h2
          simp at h2
      obtain ⟨v, hs, hvne⟩ := hvval
      have hvempty : v.isEmpty = false := by
        cases v with
        | nil => exact absurd rfl hvne
        | cons a l => rfl
      have hgetD : (List.lookup fl sugg).getD [] = v := by rw [hs]; rfl
      have hv' : ∀ p ∈ (ingestField fileId sugg st fl).2, p.2 ≠ ([] : List Char) := by
        rw [hsnd]
        intro p hp
        rcases List.mem_append.mp hp with h | h
        · exact hv p h
        · rw [List.mem_singleton] at h
          rw [h]
          exact hgetD ▸ hvne
      have hnd' : (((ingestField fileId sugg st fl).2).map Prod.fst).Nodup := by
        rw [hsnd, List.map_append, List.nodup_append]
        refine ⟨hnd, by simp, ?_⟩
        intro a ha
        simp only [List.map_cons, List.map_nil, List.mem_singleton]
        intro heq
        rw [heq] at ha
        rw [← lookup_isSome_mem] at ha
        rw [hnone] at ha
        simp at ha
      obtain ⟨ihv, ihnd, ihlook⟩ := ih (ingestField fileId sugg st fl) hv' hnd'
      refine ⟨ihv, ihnd, ?_⟩
      intro f
      rw [ihlook f]
      have hone : List.lookup f [(fl, (List.lookup fl sugg).getD [])] =
          if f == fl then some ((List.lookup fl sugg).getD []) else none := by
        cases hffl : (f == fl) <;> simp [List.lookup_cons, hffl]
      have hlookup2 : List.lookup f ((ingestField fileId sugg st fl).2) =
          (List.lookup f st.2).or
            (if f == fl then some ((List.lookup fl sugg).getD []) else none) := by
        rw [hsnd, List.lookup_append, hone]
      rw [hlookup2]
      by_cases hffl : f = fl
      · subst hffl
        rw [hnone]
        simp [hgetD, hs, jsOrNull, hvempty, List.contains_cons]
      · have hbeq : (f == fl) = false := by simp [hffl]
        rw [hbeq]
        simp only [Bool.false_eq_true, if_false, Option.or_none]
        cases hl : List.lookup f st.2 with
        | some w => simp
        | none => simp [List.contains_cons, hbeq, hffl]
    · have hsnd : (ingestField fileId sugg st fl).2 = st.2 := by
        rw [ingestField_snd, if_neg hcond]
      obtain ⟨ihv, ihnd, ihlook⟩ := ih (ingestField fileId sugg st fl)
        (by rw [hsnd]; exact hv) (by rw [hsnd]; exact hnd)
      refine ⟨ihv, ihnd, ?_⟩
      intro f
      rw [ihlook f, hsnd]
      cases hl : List.lookup f st.2 with
      | some w => simp
      | none =>
        by_cases hffl : f = fl
        · subst hffl
          rw [hl] at hcond
          simp only [jsTruthy, Bool.not_false, Bool.true_and,
            Bool.not_eq_true] at hcond
          have hnull : jsOrNull (List.lookup f sugg) = none :=
            jsTruthy_false_orNull _ hcond
          rw [hnull]
          simp
        · have hbeq : (f == fl) = false := by simp [hffl]
          simp [List.contains_cons, hbeq, hffl]

end IngestStore

namespace IngestStore

/-- Folding one file's fields: a field is a key afterwards when it was
before or belongs to the file. -/
lemma foldl_ingestField_fst (fileId : Nat) (sugg : List (List Char × List Char))
    (fields : List (List Char)) :
    ∀ st : List (List Char × List Nat) × List (List Char × List Char),
      (∀ f, f ∈ ((fields.foldl (ingestField fileId sugg) st).1.map Prod.fst) ↔
        f ∈ st.1.map Prod.fst ∨ f ∈ fields)
      ∧ ((st.1.map Prod.fst).Nodup →
          ((fields.foldl (ingestField fileId sugg) st).1.map Prod.fst).Nodup) := by
  induction fields with
  | nil => exact fun st => ⟨fun f => by simp, fun h => h⟩
  | cons fl restf ih =>
    intro st
    rw [List.foldl_cons]
    obtain ⟨ihmem, ihnd⟩ := ih (ingestField fileId sugg st fl)
    constructor
    · intro f
      rw [ihmem f]
      rw [show (ingestField fileId sugg st fl).1 = upsertPush st.1 fl fileId from rfl]
      rw [upsertPush_keys_mem]
      simp only [List.mem_cons]
      tauto
    · intro h
      apply ihnd
      rw [show (ingestField fileId sugg st fl).1 = upsertPush st.1 fl fileId from rfl]
      exact upsertPush_keys_nodup _ _ _ h

/-- Folding the previewed files: the suggestions map keeps truthy values
and duplicate-free keys, and a lookup sees the first file that suggests
the field. -/
lemma foldl_ingestFile_am (files : List FileEntry) :
    ∀ st : List (List Char × List Nat) × List (List Char × List Char),
      (∀ p ∈ st.2, p.2 ≠ ([] : List Char)) → ((st.2.map Prod.fst).Nodup) →
      (∀ p ∈ (files.foldl ingestFile st).2, p.2 ≠ ([] : List Char))
      ∧ (((files.foldl ingestFile st).2.map Prod.fst).Nodup)
      ∧ (∀ f, List.lookup f ((files.foldl ingestFile st).2) =
          match List.lookup f st.2 with
          | some v => some v
          | none => firstSuggestion files f) := by
  induction files with
  | nil =>
    intro st hv hnd
    exact ⟨hv, hnd, fun f => by
      cases h : List.lookup f st.2 <;> simp [h, firstSuggestion]⟩
  | cons file rest ih =>
    intro st hv hnd
    rw [List.foldl_cons]
    cases hpv : file.previewData with
    | none =>
      have hstep : ingestFile st file = st := by simp only [ingestFile, hpv]
      rw [hstep]
      obtain ⟨a, b, c⟩ := ih st hv hnd
      refine ⟨a, b, fun f => ?_⟩
      rw [c f]
      cases h : List.lookup f st.2 <;> simp [h, firstSuggestion, hpv]
    | some pv =>
      have hstep : ingestFile st file =
          pv.source_fields.foldl (ingestField file.id pv.suggested_mappings) st := by
        simp only [ingestFile, hpv]
      rw [hstep]
      obtain ⟨hv1, hnd1, hlook1⟩ :=
        foldl_ingestField_am file.id pv.suggested_mappings pv.source_fields st hv hnd
      obtain ⟨hv2, hnd2, hlook2⟩ := ih _ hv1 hnd1
      refine ⟨hv2, hnd2, fun f => ?_⟩
      rw [hlook2 f, hlook1 f]
      cases h : List.lookup f st.2 with
      | some w => simp
      | none =>
        simp only [firstSuggestion, hpv, fileSuggest]

/-- Folding the previewed files: a field is a key of the field-sources map
exactly when some previewed file carries it. -/
lemma foldl_ingestFile_fst (files : List FileEntry) :
    ∀ st : List (List Char × List Nat) × List (List Char × List Char),
      (∀ f, f ∈ ((files.foldl ingestFile st).1.map Prod.fst) ↔
        f ∈ st.1.map Prod.fst ∨
          ∃ file ∈ files, ∃ pv, file.previewData = some pv ∧ f ∈ pv.source_fields)
      ∧ ((st.1.map Prod.fst).Nodup →
          ((files.foldl ingestFile st).1.map Prod.fst).Nodup) := by
  induction files with
  | nil => exact fun st => ⟨fun f => by simp, fun h => h⟩
  | cons file rest ih =>
    intro st
    rw [List.foldl_cons]
    cases hpv : file.previewData with
    | none =>
      have hstep : ingestFile st file = st := by simp only [ingestFile, hpv]
      rw [hstep]
      obtain ⟨ihmem, ihnd⟩ := ih st
      refine ⟨fun f => ?_, ihnd⟩
      rw [ihmem f]
      simp only [List.mem_cons]
      constructor
      · rintro (h | ⟨fe, hfe, pv, hpv2, hf⟩)
        · exact Or.inl h
        · exact Or.inr ⟨fe, Or.inr hfe, pv, hpv2, hf⟩
      · rintro (h | ⟨fe, (rfl | hfe), pv, hpv2, hf⟩)
        · exact Or.inl h
        · rw [hpv] at hpv2
          cases hpv2
        · exact Or.inr ⟨fe, hfe, pv, hpv2, hf⟩
    | some pv =>
      have hstep : ingestFile st file =
          pv.source_fields.foldl (ingestField file.id pv.suggested_mappings) st := by
        simp only [ingestFile, hpv]
      rw [hstep]
      obtain ⟨hmem1, hnd1⟩ :=
        foldl_ingestField_fst file.id pv.suggested_mappings pv.source_fields st
      obtain ⟨ihmem, ihnd⟩ :=
        ih (pv.source_fields.foldl (ingestField file.id pv.suggested_mappings) st)
      refine ⟨fun f => ?_, fun h => ihnd (hnd1 h)⟩
      rw [ihmem f, hmem1 f]
      simp only [List.mem_cons]
      constructor
      · rintro ((h | h) | ⟨fe, hfe, pv2, hpv2, hf⟩)
        · exact Or.inl h
        · exact Or.inr ⟨file, Or.inl rfl, pv, hpv, h⟩
        · exact Or.inr ⟨fe, Or.inr hfe, pv2, hpv2, hf⟩
      · rintro (h | ⟨fe, (rfl | hfe), pv2, hpv2, hf⟩)
        · exact Or.inl (Or.inl h)
        · rw [hpv] at hpv2
          cases hpv2
          exact Or.inl (Or.inr hf)
        · exact Or.inr ⟨fe, hfe, pv2, hpv2, hf⟩

/-- Restricting to the previewed files does not change the first
suggestion. -/
lemma firstSuggestion_filter (files : List FileEntry) (f : List Char) :
    firstSuggestion (files.filter (fun f2 => f2.previewData.isSome)) f =
      firstSuggestion files f := by
  induction files with
  | nil => rfl
  | cons file rest ih =>
    cases hpv : file.previewData with
    | none => simp [List.filter_cons, hpv, firstSuggestion, ih]
    | some pv =>
      simp only [List.filter_cons, hpv, Option.isSome_some, if_pos]
      simp only [firstSuggestion, hpv]
      cases hfs : fileSuggest pv f <;> simp [hfs, ih]

/-- A first suggestion is never the empty string. -/
lemma firstSuggestion_ne_empty (files : List FileEntry) (f v : List Char)
    (h : firstSuggestion files f = some v) : v ≠ [] := by
  induction files with
  | nil => cases h
  | cons file rest ih =>
    cases hpv : file.previewData with
    | none =>
      simp only [firstSuggestion, hpv] at h
      exact ih h
    | some pv =>
      simp only [firstSuggestion, hpv] at h
      cases hfs : fileSuggest pv f with
      | none => rw [hfs] at h; exact ih h
      | some w =>
        rw [hfs] at h
        cases h
        rw [fileSuggest] at hfs
        split_ifs at hfs
        cases hl : List.lookup f pv.suggested_mappings with
        | none => rw [hl] at hfs; cases hfs
        | some u =>
          rw [hl] at hfs
          simp only [jsOrNull] at hfs
          split_ifs at hfs with hu
          cases hfs
          intro hveq
          rw [hveq] at hu
          simp at hu

/-- Applying `x || null` to a first suggestion changes nothing. -/
lemma jsOrNull_firstSuggestion (files : List FileEntry) (f : List Char) :
    jsOrNull (firstSuggestion files f) = firstSuggestion files f := by
  cases h : firstSuggestion files f with
  | none => rfl
  | some v =>
    have hne := firstSuggestion_ne_empty files f v h
    rw [jsOrNull]
    rw [if_neg]
    simpa using hne

end IngestStore

namespace IngestStore

/-- The filtered existential collapses to the plain one. -/
lemma exists_filter_preview (files : List FileEntry) (f : List Char) :
    (∃ file ∈ files.filter (fun f2 => f2.previewData.isSome),
        ∃ pv, file.previewData = some pv ∧ f ∈ pv.source_fields)
      ↔ ∃ file ∈ files, ∃ pv, file.previewData = some pv ∧ f ∈ pv.source_fields := by
  constructor
  · rintro ⟨file, hf, pv, hpv, hmem⟩
    exact ⟨file, (List.mem_filter.mp hf).1, pv, hpv, hmem⟩
  · rintro ⟨file, hf, pv, hpv, hmem⟩
    refine ⟨file, List.mem_filter.mpr ⟨hf, ?_⟩, pv, hpv, hmem⟩
    rw [hpv]
    rfl

end IngestStore

open IngestStore in
/-- C7: after `buildMergedSchema`, `workingSchema` is the sorted,
duplicate-free union of the previewed files' source fields, and
`fieldMappings` maps each such field to the first previewed file's truthy
suggestion for it, or null. -/
theorem build_merged_schema_union (files : List FileEntry) :
    List.Sorted lexR (buildMergedSchema files).workingSchema
    ∧ (buildMergedSchema files).workingSchema.Nodup
    ∧ (∀ f, f ∈ (buildMergedSchema files).workingSchema ↔
        ∃ file ∈ files, ∃ pv, file.previewData = some pv ∧ f ∈ pv.source_fields)
    ∧ (∀ f, List.lookup f (buildMergedSchema files).fieldMappings =
        if f ∈ (buildMergedSchema files).workingSchema
        then some (firstSuggestion files f) else none) := by
  obtain ⟨hv, hnd, hlook⟩ :=
    foldl_ingestFile_am (files.filter (fun f2 => f2.previewData.isSome))
      ([], []) (by simp) (by simp)
  obtain ⟨hmem, hndk⟩ :=
    foldl_ingestFile_fst (files.filter (fun f2 => f2.previewData.isSome)) ([], [])
  have hws : (buildMergedSchema files).workingSchema =
      List.insertionSort lexR
        (((files.filter (fun f2 => f2.previewData.isSome)).foldl
          ingestFile ([], [])).1.map Prod.fst) := rfl
  have hperm := List.perm_insertionSort lexR
    (((files.filter (fun f2 => f2.previewData.isSome)).foldl
      ingestFile ([], [])).1.map Prod.fst)
  have hmem2 : ∀ f, f ∈ (buildMergedSchema files).workingSchema ↔
      ∃ file ∈ files, ∃ pv, file.previewData = some pv ∧ f ∈ pv.source_fields := by
    intro f
    rw [hws, hperm.mem_iff, hmem f, ← exists_filter_preview files f]
    simp
  refine ⟨?_, ?_, hmem2, ?_⟩
  · rw [hws]
    exact List.sorted_insertionSort lexR _
  · rw [hws]
    exact hperm.nodup_iff.mpr (hndk (by simp))
  · intro f
    have hfm : (buildMergedSchema files).fieldMappings =
        (buildMergedSchema files).workingSchema.map (fun field =>
          (field, jsOrNull (List.lookup field
            (((files.filter (fun f2 => f2.previewData.isSome)).foldl
              ingestFile ([], [])).2)))) := rfl
    rw [hfm, lookup_map_self]
    split_ifs with hf
    · rw [hlook f]
      simp only [List.lookup_nil]
      rw [firstSuggestion_filter, jsOrNull_firstSuggestion]
    · rfl

open FieldSuggestions IngestStore in
/-- C8: the entity-eligible unified fields are exactly host, user, src_ip,
dest_ip, file_hash, process_name; `suggestEntityFields` returns exactly
the source fields mapped to one of them, and the auto-selection in
`buildMergedSchema` returns exactly the source fields whose first
suggestion is one of them. -/
theorem entity_field_selection :
    ENTITY_FIELDS = [cs "host", cs "user", cs "src_ip", cs "dest_ip",
      cs "file_hash", cs "process_name"]
    ∧ entityPatterns = ENTITY_FIELDS
    ∧ (∀ (m : List (List Char × Option (List Char))) (s : List Char),
        s ∈ suggestEntityFields m ↔ ∃ u, (s, some u) ∈ m ∧ u ∈ ENTITY_FIELDS)
    ∧ (∀ (files : List FileEntry) (s : List Char),
        s ∈ (buildMergedSchema files).entityFields ↔
          ∃ u, firstSuggestion files s = some u ∧ u ∈ ENTITY_FIELDS) := by
  have hEP : entityPatterns = ENTITY_FIELDS := by decide
  have hnil : ([] : List Char) ∉ ENTITY_FIELDS := by decide
  refine ⟨rfl, hEP, ?_, ?_⟩
  · intro m s
    rw [suggestEntityFields, List.mem_filterMap]
    constructor
    · rintro ⟨⟨a, ov⟩, hm, hif⟩
      cases ov with
      | none => cases hif
      | some u =>
        simp only at hif
        split_ifs at hif with hcond
        cases hif
        obtain ⟨h1, h2⟩ := Bool.and_eq_true _ _ |>.mp hcond
        refine ⟨u, hm, ?_⟩
        simpa [List.elem_eq_mem] using h2
    · rintro ⟨u, hm, hu⟩
      refine ⟨(s, some u), hm, ?_⟩
      have hne : u ≠ [] := fun h => hnil (h ▸ hu)
      have h1 : u.isEmpty = false := by
        cases u with
        | nil => exact absurd rfl hne
        | cons a l => rfl
      have h2 : ENTITY_FIELDS.contains u = true := by
        simpa [List.elem_eq_mem] using hu
      simp only [h1, h2]
      simp [hu]
  · intro files s
    obtain ⟨hv, hnd, hlook⟩ :=
      foldl_ingestFile_am (files.filter (fun f2 => f2.previewData.isSome))
        ([], []) (by simp) (by simp)
    have hef : (buildMergedSchema files).entityFields =
        (((files.filter (fun f2 => f2.previewData.isSome)).foldl
          ingestFile ([], [])).2).filterMap (fun p =>
            if entityPatterns.contains p.2 then some p.1 else none) := rfl
    rw [hef, List.mem_filterMap]
    constructor
    · rintro ⟨⟨a, u⟩, hm, hif⟩
      simp only at hif
      split_ifs at hif with hcond
      cases hif
      refine ⟨u, ?_, ?_⟩
      · have := (mem_iff_lookup _ hnd _ _).mp hm
        rw [hlook] at this
        simp only [List.lookup_nil] at this
        rw [firstSuggestion_filter] at this
        exact this
      · rw [← hEP]
        simpa [List.elem_eq_mem] using hcond
    · rintro ⟨u, hfs, hu⟩
      refine ⟨(s, u), ?_, ?_⟩
      · rw [mem_iff_lookup _ hnd, hlook]
        simp only [List.lookup_nil]
        rw [firstSuggestion_filter]
        exact hfs
      · have hcond : entityPatterns.contains u = true := by
          rw [hEP]
          simpa [List.elem_eq_mem] using hu
        simp only [hcond]
        simp [hEP, hu]

open IngestStore in
/-- C7 at two concrete files: the shared suggestion of the first file
wins. -/
theorem build_merged_schema_union_check :
    List.lookup (cs "Host") (buildMergedSchema demoFiles).fieldMappings =
      some (some (cs "host")) := by
  have h := (build_merged_schema_union demoFiles).2.2.2 (cs "Host")
  rw [h]
  decide

open IngestStore in
/-- C8 at two concrete files: the host-mapped source field is
auto-selected. -/
theorem entity_field_selection_check :
    cs "Host" ∈ (buildMergedSchema demoFiles).entityFields :=
  (entity_field_selection.2.2.2 demoFiles (cs "Host")).mpr
    ⟨cs "host", by decide, by decide⟩

namespace PivotStore

/-- Hex digits round-trip. -/
lemma hexVal_hexDigit (n : Nat) (h : n < 16) : hexVal (hexDigit n) = some n := by
  unfold hexVal hexDigit
  by_cases h10 : n < 10
  · rw [if_pos h10]
    have hc : (48 ≤ 48 + n && 48 + n ≤ 57) = true := by simp; omega
    rw [if_pos hc]
    congr 1
    omega
  · rw [if_neg h10]
    have hc1 : (48 ≤ 55 + n && 55 + n ≤ 57) = false := by simp; omega
    have hc2 : (65 ≤ 55 + n && 55 + n ≤ 70) = true := by simp; omega
    rw [if_neg (by simp [hc1]), if_pos hc2]
    congr 1
    omega

/-- A percent escape of a byte parses back to the byte. -/
lemma pctByte_of_hex (b : Nat) (hb : b < 256) (rest : JStr) :
    pctByte (37 :: hexDigit (b / 16) :: hexDigit (b % 16) :: rest) = some (b, rest) := by
  simp only [pctByte]
  rw [hexVal_hexDigit _ (by omega : b / 16 < 16), hexVal_hexDigit _ (by omega : b % 16 < 16)]
  simp [Nat.div_add_mod]

/-- A parsed escape consumes exactly three code points. -/
lemma pctByte_length (s : JStr) (B : Nat) (r : JStr)
    (h : pctByte s = some (B, r)) : s.length = r.length + 3 := by
  unfold pctByte at h
  repeat' split at h
  all_goals cases h
  simp

end PivotStore

namespace PivotStore

/-- A two-byte continuation consumes three code points. -/
lemma decode2_length (B : Nat) (r : JStr) (cp : Nat) (r2 : JStr)
    (h : decode2 B r = some (cp, r2)) : r.length = r2.length + 3 := by
  unfold decode2 at h
  split at h
  · cases h
  · rename_i B2 r2x hpb
    split at h
    · have h2 : (if 128 ≤ (B - 192) * 64 + (B2 - 128) then
          some ((B - 192) * 64 + (B2 - 128), r2x) else none) = some (cp, r2) := h
      split at h2
      · cases h2
        exact pctByte_length _ _ _ hpb
      · cases h2
    · cases h

/-- A three-byte continuation consumes six code points. -/
lemma decode3_length (B : Nat) (r : JStr) (cp : Nat) (r2 : JStr)
    (h : decode3 B r = some (cp, r2)) : r.length = r2.length + 6 := by
  unfold decode3 at h
  split at h
  · cases h
  · rename_i B2 r1 hpb1
    split at h
    · cases h
    · rename_i B3 r2x hpb2
      split at h
      · have h3 : (if 2048 ≤ (B - 224) * 4096 + (B2 - 128) * 64 + (B3 - 128) &&
            !(55296 ≤ (B - 224) * 4096 + (B2 - 128) * 64 + (B3 - 128) &&
              (B - 224) * 4096 + (B2 - 128) * 64 + (B3 - 128) ≤ 57343) then
            some ((B - 224) * 4096 + (B2 - 128) * 64 + (B3 - 128), r2x)
          else none) = some (cp, r2) := h
        split at h3
        · cases h3
          have h1 := pctByte_length _ _ _ hpb1
          have h2 := pctByte_length _ _ _ hpb2
          omega
        · cases h3
      · cases h

/-- A four-byte continuation consumes nine code points. -/
lemma decode4_length (B : Nat) (r : JStr) (cp : Nat) (r2 : JStr)
    (h : decode4 B r = some (cp, r2)) : r.length = r2.length + 9 := by
  unfold decode4 at h
  split at h
  · cases h
  · rename_i B2 r1 hpb1
    split at h
    · cases h
    · rename_i B3 rx hpb2
      split at h
      · cases h
      · rename_i B4 r2y hpb3
        split at h
        · have h4 : (if 65536 ≤ (B - 240) * 262144 + (B2 - 128) * 4096 +
              (B3 - 128) * 64 + (B4 - 128) &&
              (B - 240) * 262144 + (B2 - 128) * 4096 +
                (B3 - 128) * 64 + (B4 - 128) < 1114112 then
              some ((B - 240) * 262144 + (B2 - 128) * 4096 +
                (B3 - 128) * 64 + (B4 - 128), r2y)
            else none) = some (cp, r2) := h
          split at h4
          · cases h4
            have h1 := pctByte_length _ _ _ hpb1
            have h2 := pctByte_length _ _ _ hpb2
            have h3 := pctByte_length _ _ _ hpb3
            omega
          · cases h4
        · cases h

/-- One decoded group consumes at least one code point. -/
lemma decodeGroup_length (s : JStr) (cp : Nat) (r : JStr)
    (h : decodeGroup s = some (cp, r)) : r.length < s.length := by
  cases s with
  | nil => cases h
  | cons c t =>
    simp only [decodeGroup] at h
    split at h
    · split at h
      · cases h
      · rename_i B r0 hpb
        have h0 := pctByte_length _ _ _ hpb
        split at h
        · cases h
          omega
        · split at h
          · cases h
          · split at h
            · have h2 := decode2_length _ _ _ _ h
              omega
            · split at h
              · have h3 := decode3_length _ _ _ _ h
                omega
              · split at h
                · have h4 := decode4_length _ _ _ _ h
                  omega
                · cases h
    · cases h
      simp

end PivotStore

namespace PivotStore

/-- Any sufficient fuel computes the same decoding. -/
lemma decodeLoop_eq_of_le : ∀ (n : Nat) (s : JStr) (f : Nat),
    s.length ≤ n → s.length ≤ f → decodeLoop f s = decodeLoop s.length s := by
  intro n
  induction n with
  | zero =>
    intro s f h1 h2
    cases s with
    | nil => cases f <;> rfl
    | cons c t => simp at h1
  | succ n ih =>
    intro s f h1 h2
    cases s with
    | nil => cases f <;> rfl
    | cons c t =>
      cases f with
      | zero => simp at h2
      | succ f2 =>
        simp only [List.length_cons] at h1 h2 ⊢
        cases hg : decodeGroup (c :: t) with
        | none => simp only [decodeLoop, hg]
        | some pr =>
          obtain ⟨cp, r⟩ := pr
          have hr : r.length < t.length + 1 := by
            have := decodeGroup_length _ _ _ hg
            simpa using this
          simp only [decodeLoop, hg]
          rw [ih r f2 (by omega) (by omega), ih r t.length (by omega) (by omega)]

/-- Unfolding one decoded group. -/
lemma decodeURI_step (c : Nat) (t : JStr) (cp : Nat) (r : JStr)
    (hg : decodeGroup (c :: t) = some (cp, r)) :
    decodeURI (c :: t) = (decodeURI r).map (cp :: ·) := by
  have hr : r.length < t.length + 1 := by
    have := decodeGroup_length _ _ _ hg
    simpa using this
  unfold decodeURI
  simp only [List.length_cons, decodeLoop, hg]
  rw [decodeLoop_eq_of_le t.length r t.length (by omega) (by omega)]

/-- Unfolding one failing group. -/
lemma decodeURI_step_none (c : Nat) (t : JStr)
    (hg : decodeGroup (c :: t) = none) : decodeURI (c :: t) = none := by
  unfold decodeURI
  simp only [List.length_cons, decodeLoop, hg]

end PivotStore

namespace PivotStore

/-- The unreserved code points are below 128 and are not the percent
sign. -/
lemma unreservedCp_range (c : Nat) (h : unreservedCp c = true) :
    c < 128 ∧ (c == 37) = false := by
  unfold unreservedCp isDigitCp isAlphaCp isMarkCp at h
  simp only [Bool.or_eq_true, Bool.and_eq_true, decide_eq_true_eq,
    beq_iff_eq] at h
  constructor
  · omega
  · simp only [beq_eq_false_iff_ne, ne_eq]
    omega

/-- A plain code point is one group. -/
lemma decodeGroup_plain (c : Nat) (t : JStr) (h : (c == 37) = false) :
    decodeGroup (c :: t) = some (c, t) := by
  simp only [decodeGroup, h]
  rfl

/-- An escaped ASCII byte is one group. -/
lemma decodeGroup_pct1 (b : Nat) (hb : b < 128) (rest : JStr) :
    decodeGroup (37 :: hexDigit (b / 16) :: hexDigit (b % 16) :: rest) =
      some (b, rest) := by
  simp only [decodeGroup, beq_self_eq_true, if_true]
  rw [pctByte_of_hex b (by omega) rest]
  simp only [if_pos hb]

/-- A two-byte escape sequence is one group. -/
lemma decodeGroup_pct2 (c : Nat) (h1 : 128 ≤ c) (h2 : c < 2048) (rest : JStr) :
    decodeGroup (37 :: hexDigit ((192 + c / 64) / 16) :: hexDigit ((192 + c / 64) % 16) ::
      37 :: hexDigit ((128 + c % 64) / 16) :: hexDigit ((128 + c % 64) % 16) :: rest) =
      some (c, rest) := by
  simp only [decodeGroup, beq_self_eq_true, if_true]
  rw [pctByte_of_hex (192 + c / 64) (by omega)]
  have hb1 : ¬(192 + c / 64 < 128) := by omega
  have hb2 : ¬(192 + c / 64 < 192) := by omega
  have hb3 : 192 + c / 64 < 224 := by omega
  simp only []
  rw [if_neg hb1, if_neg hb2, if_pos hb3]
  unfold decode2
  rw [pctByte_of_hex (128 + c % 64) (by omega)]
  have hco : contOk (128 + c % 64) = true := by
    unfold contOk
    simp
    omega
  simp only [hco, if_true]
  show (if 128 ≤ (192 + c / 64 - 192) * 64 + (128 + c % 64 - 128) then
      some ((192 + c / 64 - 192) * 64 + (128 + c % 64 - 128), rest)
    else none) = some (c, rest)
  rw [if_pos (by omega)]
  rw [show (192 + c / 64 - 192) * 64 + (128 + c % 64 - 128) = c by omega]

end PivotStore

namespace PivotStore

/-- A three-byte escape sequence of a non-surrogate code point is one
group. -/
lemma decodeGroup_pct3 (c : Nat) (h1 : 2048 ≤ c) (h2 : c < 65536)
    (hs : ¬(55296 ≤ c ∧ c ≤ 57343)) (rest : JStr) :
    decodeGroup (37 :: hexDigit ((224 + c / 4096) / 16) :: hexDigit ((224 + c / 4096) % 16) ::
      37 :: hexDigit ((128 + c / 64 % 64) / 16) :: hexDigit ((128 + c / 64 % 64) % 16) ::
      37 :: hexDigit ((128 + c % 64) / 16) :: hexDigit ((128 + c % 64) % 16) :: rest) =
      some (c, rest) := by
  simp only [decodeGroup, beq_self_eq_true, if_true]
  rw [pctByte_of_hex (224 + c / 4096) (by omega)]
  simp only []
  rw [if_neg (by omega : ¬(224 + c / 4096 < 128)),
    if_neg (by omega : ¬(224 + c / 4096 < 192)),
    if_neg (by omega : ¬(224 + c / 4096 < 224)),
    if_pos (by omega : 224 + c / 4096 < 240)]
  unfold decode3
  rw [pctByte_of_hex (128 + c / 64 % 64) (by omega)]
  simp only []
  rw [pctByte_of_hex (128 + c % 64) (by omega)]
  have hco : (contOk (128 + c / 64 % 64) && contOk (128 + c % 64)) = true := by
    unfold contOk
    simp
    omega
  simp only [hco, if_true]
  show (if 2048 ≤ (224 + c / 4096 - 224) * 4096 + (128 + c / 64 % 64 - 128) * 64 + (128 + c % 64 - 128) &&
      !(55296 ≤ (224 + c / 4096 - 224) * 4096 + (128 + c / 64 % 64 - 128) * 64 + (128 + c % 64 - 128) &&
        (224 + c / 4096 - 224) * 4096 + (128 + c / 64 % 64 - 128) * 64 + (128 + c % 64 - 128) ≤ 57343) then
      some ((224 + c / 4096 - 224) * 4096 + (128 + c / 64 % 64 - 128) * 64 + (128 + c % 64 - 128), rest)
    else none) = some (c, rest)
  have hc : (224 + c / 4096 - 224) * 4096 + (128 + c / 64 % 64 - 128) * 64 + (128 + c % 64 - 128) = c := by
    omega
  rw [hc]
  rw [if_pos (by simp; omega)]

/-- A four-byte escape sequence of an in-range code point is one group. -/
lemma decodeGroup_pct4 (c : Nat) (h1 : 65536 ≤ c) (h2 : c < 1114112) (rest : JStr) :
    decodeGroup (37 :: hexDigit ((240 + c / 262144) / 16) :: hexDigit ((240 + c / 262144) % 16) ::
      37 :: hexDigit ((128 + c / 4096 % 64) / 16) :: hexDigit ((128 + c / 4096 % 64) % 16) ::
      37 :: hexDigit ((128 + c / 64 % 64) / 16) :: hexDigit ((128 + c / 64 % 64) % 16) ::
      37 :: hexDigit ((128 + c % 64) / 16) :: hexDigit ((128 + c % 64) % 16) :: rest) =
      some (c, rest) := by
  simp only [decodeGroup, beq_self_eq_true, if_true]
  rw [pctByte_of_hex (240 + c / 262144) (by omega)]
  simp only []
  rw [if_neg (by omega : ¬(240 + c / 262144 < 128)),
    if_neg (by omega : ¬(240 + c / 262144 < 192)),
    if_neg (by omega : ¬(240 + c / 262144 < 224)),
    if_neg (by omega : ¬(240 + c / 262144 < 240)),
    if_pos (by omega : 240 + c / 262144 < 248)]
  unfold decode4
  rw [pctByte_of_hex (128 + c / 4096 % 64) (by omega)]
  simp only []
  rw [pctByte_of_hex (128 + c / 64 % 64) (by omega)]
  simp only []
  rw [pctByte_of_hex (128 + c % 64) (by omega)]
  have hco : ((contOk (128 + c / 4096 % 64) && contOk (128 + c / 64 % 64)) &&
      contOk (128 + c % 64)) = true := by
    unfold contOk
    simp
    omega
  simp only [hco, if_true]
  show (if 65536 ≤ (240 + c / 262144 - 240) * 262144 + (128 + c / 4096 % 64 - 128) * 4096 +
        (128 + c / 64 % 64 - 128) * 64 + (128 + c % 64 - 128) &&
      (240 + c / 262144 - 240) * 262144 + (128 + c / 4096 % 64 - 128) * 4096 +
        (128 + c / 64 % 64 - 128) * 64 + (128 + c % 64 - 128) < 1114112 then
      some ((240 + c / 262144 - 240) * 262144 + (128 + c / 4096 % 64 - 128) * 4096 +
        (128 + c / 64 % 64 - 128) * 64 + (128 + c % 64 - 128), rest)
    else none) = some (c, rest)
  have hc : (240 + c / 262144 - 240) * 262144 + (128 + c / 4096 % 64 - 128) * 4096 +
      (128 + c / 64 % 64 - 128) * 64 + (128 + c % 64 - 128) = c := by
    omega
  rw [hc]
  rw [if_pos (by simp; omega)]

end PivotStore

namespace PivotStore

/-- Code points at or above 128 are never unreserved. -/
lemma unreservedCp_false_of_ge (c : Nat) (h : 128 ≤ c) : unreservedCp c = false := by
  cases hb : unreservedCp c
  · rfl
  · exfalso
    unfold unreservedCp isDigitCp isAlphaCp isMarkCp at hb
    simp only [Bool.or_eq_true, Bool.and_eq_true, decide_eq_true_eq,
      beq_iff_eq] at hb
    omega

/-- The percent-escape form of an ASCII, non-unreserved code point. -/
lemma encChar_eq_ascii (c : Nat) (h : unreservedCp c = false) (h2 : c < 128) :
    encChar c = [37, hexDigit (c / 16), hexDigit (c % 16)] := by
  unfold encChar utf8Bytes pctEncodeByte
  rw [if_neg (by simp [h]), if_pos h2]
  simp

/-- The percent-escape form of a two-byte code point. -/
lemma encChar_eq_two (c : Nat) (h1 : 128 ≤ c) (h2 : c < 2048) :
    encChar c = [37, hexDigit ((192 + c / 64) / 16), hexDigit ((192 + c / 64) % 16),
      37, hexDigit ((128 + c % 64) / 16), hexDigit ((128 + c % 64) % 16)] := by
  unfold encChar utf8Bytes pctEncodeByte
  rw [if_neg (by simp [unreservedCp_false_of_ge c h1]), if_neg (by omega), if_pos h2]
  simp

/-- The percent-escape form of a three-byte code point. -/
lemma encChar_eq_three (c : Nat) (h1 : 2048 ≤ c) (h2 : c < 65536) :
    encChar c = [37, hexDigit ((224 + c / 4096) / 16), hexDigit ((224 + c / 4096) % 16),
      37, hexDigit ((128 + c / 64 % 64) / 16), hexDigit ((128 + c / 64 % 64) % 16),
      37, hexDigit ((128 + c % 64) / 16), hexDigit ((128 + c % 64) % 16)] := by
  unfold encChar utf8Bytes pctEncodeByte
  rw [if_neg (by simp [unreservedCp_false_of_ge c (by omega)]), if_neg (by omega),
    if_neg (by omega), if_pos h2]
  simp

/-- The percent-escape form of a four-byte code point. -/
lemma encChar_eq_four (c : Nat) (h1 : 65536 ≤ c) :
    encChar c = [37, hexDigit ((240 + c / 262144) / 16), hexDigit ((240 + c / 262144) % 16),
      37, hexDigit ((128 + c / 4096 % 64) / 16), hexDigit ((128 + c / 4096 % 64) % 16),
      37, hexDigit ((128 + c / 64 % 64) / 16), hexDigit ((128 + c / 64 % 64) % 16),
      37, hexDigit ((128 + c % 64) / 16), hexDigit ((128 + c % 64) % 16)] := by
  unfold encChar utf8Bytes pctEncodeByte
  rw [if_neg (by simp [unreservedCp_false_of_ge c (by omega)]), if_neg (by omega),
    if_neg (by omega), if_neg (by omega)]
  simp

/-- Decoding one encoded character prepends it. -/
lemma decodeURI_encChar (c : Nat) (hs : IsScalarCp c) (rest : JStr) :
    decodeURI (encChar c ++ rest) = (decodeURI rest).map (c :: ·) := by
  by_cases hu : unreservedCp c = true
  · obtain ⟨hlt, h37⟩ := unreservedCp_range c hu
    rw [show encChar c = [c] from by unfold encChar; rw [if_pos hu]]
    rw [List.singleton_append]
    rw [decodeURI_step c rest c rest (decodeGroup_plain c rest h37)]
  · have hu2 : unreservedCp c = false := by simpa using hu
    rcases Nat.lt_or_ge c 128 with hr1 | hr1
    · rw [encChar_eq_ascii c hu2 hr1, List.cons_append, List.cons_append,
        List.cons_append, List.nil_append]
      exact decodeURI_step _ _ _ _ (decodeGroup_pct1 c hr1 rest)
    · rcases Nat.lt_or_ge c 2048 with hr2 | hr2
      · rw [encChar_eq_two c hr1 hr2]
        simp only [List.cons_append, List.nil_append]
        exact decodeURI_step _ _ _ _ (decodeGroup_pct2 c hr1 hr2 rest)
      · rcases Nat.lt_or_ge c 65536 with hr3 | hr3
        · rw [encChar_eq_three c hr2 hr3]
          simp only [List.cons_append, List.nil_append]
          exact decodeURI_step _ _ _ _ (decodeGroup_pct3 c hr2 hr3 hs.2 rest)
        · rw [encChar_eq_four c hr3]
          simp only [List.cons_append, List.nil_append]
          exact decodeURI_step _ _ _ _ (decodeGroup_pct4 c hr3 hs.1 rest)

/-- Decoding inverts encoding on scalar strings. -/
lemma decodeURI_encode (v : JStr) (hs : ∀ c ∈ v, IsScalarCp c) :
    decodeURI (encodeURIComponent v) = some v := by
  induction v with
  | nil => rfl
  | cons c cs2 ih =>
    have hstep : encodeURIComponent (c :: cs2) = encChar c ++ encodeURIComponent cs2 := by
      simp [encodeURIComponent]
    rw [hstep, decodeURI_encChar c (hs c (List.mem_cons_self _ _)) _]
    rw [ih (fun x hx => hs x (List.mem_cons_of_mem _ hx))]
    rfl

end PivotStore

namespace PivotStore

/-- Hex digits lie in the digit or upper-letter band. -/
lemma hexDigit_range (n : Nat) (h : n < 16) :
    (48 ≤ hexDigit n ∧ hexDigit n ≤ 57) ∨ (65 ≤ hexDigit n ∧ hexDigit n ≤ 70) := by
  unfold hexDigit
  split_ifs <;> omega

/-- UTF-8 bytes of a scalar value are bytes. -/
lemma utf8Bytes_lt (c : Nat) (hs : c < 1114112) : ∀ b ∈ utf8Bytes c, b < 256 := by
  intro b hb
  unfold utf8Bytes at hb
  split_ifs at hb <;> simp at hb <;> omega

/-- No encoded character contains the comma or the colon. -/
lemma encChar_no_sep (c x : Nat) (hs : IsScalarCp c) (hx : x ∈ encChar c) :
    x ≠ 44 ∧ x ≠ 58 := by
  unfold encChar at hx
  split_ifs at hx with hu
  · rw [List.mem_singleton] at hx
    subst hx
    constructor
    · intro h44
      rw [h44] at hu
      exact absurd hu (by decide)
    · intro h58
      rw [h58] at hu
      exact absurd hu (by decide)
  · rw [List.mem_flatten] at hx
    obtain ⟨l, hl, hxl⟩ := hx
    rw [List.mem_map] at hl
    obtain ⟨b, hb, rfl⟩ := hl
    have hblt : b < 256 := utf8Bytes_lt c hs.1 b hb
    unfold pctEncodeByte at hxl
    rcases List.mem_cons.mp hxl with h | h
    · omega
    rcases List.mem_cons.mp h with h2 | h2
    · rcases hexDigit_range (b / 16) (by omega) with ⟨ha, hb2⟩ | ⟨ha, hb2⟩ <;> omega
    rcases List.mem_cons.mp h2 with h3 | h3
    · rcases hexDigit_range (b % 16) (by omega) with ⟨ha, hb2⟩ | ⟨ha, hb2⟩ <;> omega
    · simp at h3

/-- No encoded value contains the comma or the colon. -/
lemma encode_no_sep (v : JStr) (x : Nat) (hs : ∀ c ∈ v, IsScalarCp c)
    (hx : x ∈ encodeURIComponent v) : x ≠ 44 ∧ x ≠ 58 := by
  unfold encodeURIComponent at hx
  rw [List.mem_flatten] at hx
  obtain ⟨l, hl, hxl⟩ := hx
  rw [List.mem_map] at hl
  obtain ⟨c, hc, rfl⟩ := hl
  exact encChar_no_sep c x (hs c hc) hxl

/-- Splitting a separator-free string yields it whole. -/
lemma splitOnCp_no_sep (sep : Nat) (s : JStr) (h : sep ∉ s) :
    splitOnCp sep s = [s] := by
  induction s with
  | nil => rfl
  | cons c rest ih =>
    have hc : (c == sep) = false := by
      simp only [beq_eq_false_iff_ne, ne_eq]
      intro hcs
      exact h (hcs ▸ List.mem_cons_self _ _)
    have hrest : sep ∉ rest := fun hr => h (List.mem_cons_of_mem _ hr)
    simp only [splitOnCp, hc, ih hrest]
    simp

/-- Splitting after a separator-free head. -/
lemma splitOnCp_append_sep (sep : Nat) (p r : JStr) (h : sep ∉ p) :
    splitOnCp sep (p ++ sep :: r) = p :: splitOnCp sep r := by
  induction p with
  | nil =>
    simp only [List.nil_append, splitOnCp, beq_self_eq_true, if_true]
  | cons c p2 ih =>
    have hc : (c == sep) = false := by
      simp only [beq_eq_false_iff_ne, ne_eq]
      intro hcs
      exact h (hcs ▸ List.mem_cons_self _ _)
    have hp2 : sep ∉ p2 := fun hr => h (List.mem_cons_of_mem _ hr)
    simp only [List.cons_append, splitOnCp, hc]
    simp only [List.append_eq, ih hp2]
    simp

/-- Splitting inverts joining for separator-free parts. -/
lemma splitOnCp_joinSep (parts : List JStr)
    (h : ∀ p ∈ parts, (44 : Nat) ∉ p) (hne : parts ≠ []) :
    splitOnCp 44 (joinSep [44] parts) = parts := by
  induction parts with
  | nil => exact absurd rfl hne
  | cons x xs ih =>
    cases xs with
    | nil =>
      rw [show joinSep [44] [x] = x from rfl]
      rw [splitOnCp_no_sep 44 x (h x (List.mem_cons_self _ _))]
    | cons y ys =>
      rw [show joinSep [44] (x :: y :: ys) = x ++ 44 :: joinSep [44] (y :: ys) from by
        simp [joinSep]]
      rw [splitOnCp_append_sep 44 x _ (h x (List.mem_cons_self _ _))]
      rw [ih (fun p hp => h p (List.mem_cons_of_mem _ hp)) (by simp)]

end PivotStore

namespace PivotStore

/-- One serialized part deserializes to its pivot entity. -/
lemma deserialize_part (t v : JStr) (ht58 : (58 : Nat) ∉ t)
    (hv : ∀ c ∈ v, IsScalarCp c) :
    splitOnCp 58 (t ++ 58 :: encodeURIComponent v) = [t, encodeURIComponent v]
    ∧ decodeURI (encodeURIComponent v) = some v := by
  constructor
  · rw [splitOnCp_append_sep 58 t _ ht58]
    rw [splitOnCp_no_sep 58 _ (fun hmem => (encode_no_sep v 58 hv hmem).2 rfl)]
  · exact decodeURI_encode v hv

end PivotStore

open PivotStore in
/-- C9 (amended): pivot lists whose entries are built by
`createPivotEntity` from a type free of colon and comma and a well-formed
value survive the URL round trip, the empty list included; values may
contain the separators since they are percent-encoded. -/
theorem pivot_serialization_roundtrip (l : List (JStr × JStr))
    (h : ∀ p ∈ l, (((44 : Nat) ∉ p.1) ∧ ((58 : Nat) ∉ p.1)) ∧
      ∀ c ∈ p.2, IsScalarCp c) :
    deserializePivots (some (serializePivots
        (l.map (fun p => createPivotEntity p.1 p.2)))) =
      l.map (fun p => createPivotEntity p.1 p.2) := by
  cases l with
  | nil => rfl
  | cons p0 rest =>
    have hmapparts : ((p0 :: rest).map (fun p => createPivotEntity p.1 p.2)).map
        (fun e => e.type ++ [58] ++ encodeURIComponent e.value) =
        (p0 :: rest).map (fun p => p.1 ++ 58 :: encodeURIComponent p.2) := by
      rw [List.map_map]
      apply List.map_congr_left
      intro p _
      simp [createPivotEntity]
    have hser : serializePivots ((p0 :: rest).map (fun p => createPivotEntity p.1 p.2)) =
        joinSep [44] ((p0 :: rest).map (fun p => p.1 ++ 58 :: encodeURIComponent p.2)) := by
      rw [serializePivots, if_neg (by simp)]
      rw [hmapparts]
    have hpartfree : ∀ q ∈ (p0 :: rest).map (fun p => p.1 ++ 58 :: encodeURIComponent p.2),
        (44 : Nat) ∉ q := by
      intro q hq
      rw [List.mem_map] at hq
      obtain ⟨p, hp, rfl⟩ := hq
      intro hmem
      rcases List.mem_append.mp hmem with h1 | h1
      · exact (h p hp).1.1 h1
      rcases List.mem_cons.mp h1 with h2 | h2
      · cases h2
      · exact (encode_no_sep p.2 44 (h p hp).2 h2).1 rfl
    have hsplit : splitOnCp 44 (joinSep [44]
        ((p0 :: rest).map (fun p => p.1 ++ 58 :: encodeURIComponent p.2))) =
        (p0 :: rest).map (fun p => p.1 ++ 58 :: encodeURIComponent p.2) :=
      splitOnCp_joinSep _ hpartfree (by simp)
    have hne : (joinSep [44] ((p0 :: rest).map
        (fun p => p.1 ++ 58 :: encodeURIComponent p.2))).isEmpty = false := by
      cases rest with
      | nil => simp [joinSep]
      | cons q qs => simp [joinSep]
    have hmapM : ∀ (L : List (JStr × JStr)),
        (∀ p ∈ L, (((44 : Nat) ∉ p.1) ∧ ((58 : Nat) ∉ p.1)) ∧
          ∀ c ∈ p.2, IsScalarCp c) →
        (L.map (fun p => p.1 ++ 58 :: encodeURIComponent p.2)).mapM (fun part =>
          match decodeURI ((splitOnCp 58 part).getD 1 []) with
          | some v => some (createPivotEntity ((splitOnCp 58 part).headD []) v)
          | none => none) =
        some (L.map (fun p => createPivotEntity p.1 p.2)) := by
      intro L
      induction L with
      | nil => intro _; rfl
      | cons q qs ih =>
        intro hL
        obtain ⟨hsp, hdec⟩ := deserialize_part q.1 q.2
          (hL q (List.mem_cons_self _ _)).1.2 (hL q (List.mem_cons_self _ _)).2
        simp only [List.map_cons, List.mapM_cons, hsp, List.getD_cons_succ,
          List.getD_cons_zero, List.headD_cons, hdec]
        rw [ih (fun p hp => hL p (List.mem_cons_of_mem _ hp))]
        rfl
    rw [hser]
    rw [deserializePivots]
    rw [if_neg (fun hh => Bool.false_ne_true (hne.symm.trans hh))]
    rw [hsplit]
    rw [hmapM (p0 :: rest) h]

open PivotStore in
/-- C9 counterexample: a type containing a colon breaks the round trip,
since only values are percent-encoded. -/
theorem pivot_roundtrip_cex :
    deserializePivots (some (serializePivots
        [createPivotEntity (codes "a:b") (codes "v")])) ≠
      [createPivotEntity (codes "a:b") (codes "v")] := by decide

open PivotStore in
/-- C9 at a concrete pivot whose value carries both separators. -/
theorem pivot_serialization_roundtrip_check :
    deserializePivots (some (serializePivots
        ([(codes "host", codes "web:01,x")].map
          (fun p => createPivotEntity p.1 p.2)))) =
      [(codes "host", codes "web:01,x")].map (fun p => createPivotEntity p.1 p.2) :=
  pivot_serialization_roundtrip _ (by decide)
